import Mathlib

/-!
# contentful-go: validation decoding, field decoding and version-stamped mutations

A shallow embedding of `content_type.go` and `entry.go`.

* A JSON document (the content of a `[]byte` known to be syntactically valid) and a decoded Go
  value of type `interface{}` are both written as a `JSON` tree.  Read as bytes, the members of
  an object keep their order and duplicates; read as a Go `map[string]interface{}`, the last
  member with a given key is the one a look-up finds.
* A Go call ends in one of three ways: it returns normally, it returns an `error`, or it
  panics (a failed single-value type assertion, a nil pointer dereference).  `Res` keeps the
  three apart.
* Numbers are integer valued; `float64` rounding is not part of the development, but a
  number too large for a `float64` is refused where the code decodes into `interface{}`.
* A `JSON` tree read as bytes stands for a text that `encoding/json` accepts as syntax, within
  its nesting limit.
* Code of the package outside the two files (the variant structs, `Sys`, `newRequest`, the
  content-type collection) enters as a parameter or as a definition marked as modelled from
  the spec.
-/

namespace Contentful

/-! ## JSON values -/

/-- A JSON tree: the syntax of a document and the shape of a decoded `interface{}` value. -/
inductive JSON where
  | null
  | bool (b : Bool)
  | num (n : Int)
  | str (s : String)
  | arr (xs : List JSON)
  | obj (kvs : List (String × JSON))

/-- Member list of a Go map `map[string]interface{}`. -/
abbrev JMap := List (String × JSON)

/-- The `ok` of `_, ok := m[key]`: whether the map has the key. -/
def hasKey (m : JMap) (key : String) : Bool :=
  m.any (fun kv => decide (kv.1 = key))

/-- The `val` of `val, ok := m[key]`: the value stored under the key, the last one written. -/
def lookup (m : JMap) (key : String) : Option JSON :=
  match m with
  | [] => none
  | (k, v) :: rest =>
    match lookup rest key with
    | some w => some w
    | none => if k = key then some v else none

/-- Byte-wise order of two keys, the order in which `json.Marshal` writes the keys of a map. -/
def ltChars : List Char → List Char → Bool
  | [], [] => false
  | [], _ :: _ => true
  | _ :: _, [] => false
  | a :: as, b :: bs =>
    decide (a.toNat < b.toNat) || (decide (a.toNat = b.toNat) && ltChars as bs)

/-- Key order used by `json.Marshal` on maps. -/
def keyLt (s t : String) : Bool := ltChars s.data t.data

/-- Put a member into a key-sorted member list; a key already there keeps its value, which is
the later one of the original map. -/
def insertMember (k : String) (v : JSON) : JMap → JMap
  | [] => [(k, v)]
  | (k', v') :: rest =>
    if keyLt k k' then (k, v) :: (k', v') :: rest
    else if k = k' then (k', v') :: rest
    else (k', v') :: insertMember k v rest

mutual
/-- The document `json.Marshal` writes for a decoded value: every map is written with its keys
sorted and each key once. -/
def JSON.Marshal : JSON → JSON
  | .arr xs => .arr (marshalList xs)
  | .obj kvs => .obj (marshalMembers kvs)
  | j => j
/-- Marshal the elements of an array. -/
def marshalList : List JSON → List JSON
  | [] => []
  | x :: xs => x.Marshal :: marshalList xs
/-- Marshal the members of a map. -/
def marshalMembers : JMap → JMap
  | [] => []
  | (k, v) :: rest => insertMember k v.Marshal (marshalMembers rest)
end

/-! ## Outcomes of a Go call -/

/-- An `error` value, by where it is made. -/
inductive Err where
  /-- The text is not JSON (`json.SyntaxError`). -/
  | invalidJSON (msg : String)
  /-- The JSON value does not fit the Go type it is decoded into (`json.UnmarshalTypeError`). -/
  | typeMismatch (what : String)
  /-- An error of `json.Marshal`. -/
  | marshal (msg : String)
  /-- An error made with `fmt.Errorf` in this package. -/
  | errorf (msg : String)
  /-- An error returned by `newRequest`. -/
  | request (msg : String)
  /-- An error returned by the transport, `c.do`. -/
  | transport (msg : String)
  deriving DecidableEq

/-- How a Go call ends: normal return, returned `error`, or panic. -/
inductive Res (α : Type) where
  | ok (a : α)
  | err (e : Err)
  | panic (msg : String)

namespace Res

/-- Sequencing: the first error or panic ends the computation. -/
def bind {α β : Type} (r : Res α) (f : α → Res β) : Res β :=
  match r with
  | .ok a => f a
  | .err e => .err e
  | .panic m => .panic m

/-- Apply a function to the returned value. -/
def map {α β : Type} (f : α → β) (r : Res α) : Res β :=
  match r with
  | .ok a => .ok (f a)
  | .err e => .err e
  | .panic m => .panic m

/-- The call returned normally. -/
def isOk {α : Type} : Res α → Bool
  | .ok _ => true
  | _ => false

end Res

/-- Whether `encoding/json` can store a number in a `float64`: a literal whose magnitude
reaches the largest `float64` plus half a unit in the last place, `2 ^ 1024 - 2 ^ 970`
(written below as a product of smaller powers), such as `1e400`, is refused with a type error
when it is decoded into an `interface{}`. -/
def fitsFloat64 (n : Int) : Bool :=
  decide (n.natAbs < (2 ^ 54 - 1) * (2 ^ 243 * 2 ^ 243 * 2 ^ 242 * 2 ^ 242))

mutual
/-- Whether every number of a document can be decoded into an `interface{}` value. -/
def JSON.decodable : JSON → Bool
  | .num n => fitsFloat64 n
  | .arr xs => decodableList xs
  | .obj kvs => decodableMembers kvs
  | _ => true
/-- Whether every number in a list of documents can be decoded. -/
def decodableList : List JSON → Bool
  | [] => true
  | x :: xs => x.decodable && decodableList xs
/-- Whether every number in the members of an object can be decoded. -/
def decodableMembers : JMap → Bool
  | [] => true
  | (_, v) :: rest => v.decodable && decodableMembers rest
end

/-- The shape step of the library call `json.Unmarshal(bytes, &m)` for `m` an empty or nil
`map[string]interface{}`, on a document whose numbers have been read: an object fills the map,
`null` leaves it as it is, and any other value is a type error.  Numbers outside `float64`
are refused before this step: in text by the reading `Codec.parse`, in bytes by
`unmarshalPayload`. -/
def unmarshalMap (doc : JSON) : Res JMap :=
  match doc with
  | .obj kvs => .ok kvs
  | .null => .ok []
  | .bool _ => .err (.typeMismatch "bool")
  | .num _ => .err (.typeMismatch "number")
  | .str _ => .err (.typeMismatch "string")
  | .arr _ => .err (.typeMismatch "array")

/-- The library call `json.Unmarshal(data, &payload)` of lines 69-72 and 260-263, on bytes
that are syntactically valid: the whole object is decoded into the map, so a member holding a
number outside `float64` makes the call return a type error, whatever its key. -/
def unmarshalPayload (data : JSON) : Res JMap :=
  match unmarshalMap data with
  | .ok payload =>
    if decodableMembers payload then .ok payload else .err (.typeMismatch "number")
  | .err e => .err e
  | .panic m => .panic m

/-! ## Reading JSON text

A small reader for JSON text, used where the source hands a Go string to `json.Unmarshal`.
It covers objects, arrays, strings with the single-character escapes, integers and the three
literals. -/

/-- Drop leading white space. -/
def skipWs : List Char → List Char
  | [] => []
  | c :: cs =>
    if c.toNat = 32 ∨ c.toNat = 9 ∨ c.toNat = 10 ∨ c.toNat = 13 then skipWs cs else c :: cs

/-- The character an escape letter stands for. -/
def unescape (c : Char) : Option Char :=
  if c.toNat = 34 then some c
  else if c.toNat = 92 then some c
  else if c.toNat = 47 then some c
  else if c = 'n' then some (Char.ofNat 10)
  else if c = 't' then some (Char.ofNat 9)
  else if c = 'r' then some (Char.ofNat 13)
  else if c = 'b' then some (Char.ofNat 8)
  else if c = 'f' then some (Char.ofNat 12)
  else none

/-- Read a string body up to its closing quote; `acc` holds the characters read, last first. -/
def readString : List Char → List Char → Option (String × List Char)
  | _, [] => none
  | acc, c :: cs =>
    if c.toNat = 34 then some (String.mk acc.reverse, cs)
    else if c.toNat = 92 then
      match cs with
      | [] => none
      | e :: cs' =>
        match unescape e with
        | none => none
        | some ch => readString (ch :: acc) cs'
    else if c.toNat < 32 then none
    else readString (c :: acc) cs

/-- Read a run of decimal digits. -/
def readDigits : Nat → List Char → Nat × List Char
  | n, [] => (n, [])
  | n, c :: cs =>
    if 48 ≤ c.toNat ∧ c.toNat ≤ 57 then readDigits (n * 10 + (c.toNat - 48)) cs else (n, c :: cs)

/-- Read an unsigned integer literal: `0`, or a non-zero digit followed by digits. -/
def readNat : List Char → Option (Nat × List Char)
  | [] => none
  | c :: cs =>
    if c.toNat = 48 then some (0, cs)
    else if 49 ≤ c.toNat ∧ c.toNat ≤ 57 then some (readDigits (c.toNat - 48) cs)
    else none

/-- A number literal may not run on into a fraction or an exponent. -/
def endsNumber : List Char → Bool
  | [] => true
  | c :: _ => !(c = '.' || c = 'e' || c = 'E' || (decide (48 ≤ c.toNat) && decide (c.toNat ≤ 57)))

mutual
/-- Read one JSON value; the fuel bounds the nesting depth. -/
def readValue : Nat → List Char → Option (JSON × List Char)
  | 0, _ => none
  | fuel + 1, cs =>
    match skipWs cs with
    | 'n' :: 'u' :: 'l' :: 'l' :: rest => some (.null, rest)
    | 't' :: 'r' :: 'u' :: 'e' :: rest => some (.bool true, rest)
    | 'f' :: 'a' :: 'l' :: 's' :: 'e' :: rest => some (.bool false, rest)
    | '[' :: rest =>
      match skipWs rest with
      | ']' :: rest' => some (.arr [], rest')
      | _ =>
        match readElems fuel rest with
        | some (xs, rest') => some (.arr xs, rest')
        | none => none
    | '{' :: rest =>
      match skipWs rest with
      | '}' :: rest' => some (.obj [], rest')
      | _ =>
        match readMembers fuel rest with
        | some (kvs, rest') => some (.obj kvs, rest')
        | none => none
    | '-' :: rest =>
      match readNat rest with
      | some (n, rest') => if endsNumber rest' then some (.num (-(n : Int)), rest') else none
      | none => none
    | c :: rest =>
      if c.toNat = 34 then
        match readString [] rest with
        | some (s, rest') => some (.str s, rest')
        | none => none
      else
        match readNat (c :: rest) with
        | some (n, rest') => if endsNumber rest' then some (.num (n : Int), rest') else none
        | none => none
    | [] => none
/-- Read the elements of a non-empty array, up to and including the closing bracket. -/
def readElems : Nat → List Char → Option (List JSON × List Char)
  | 0, _ => none
  | fuel + 1, cs =>
    match readValue fuel cs with
    | none => none
    | some (x, rest) =>
      match skipWs rest with
      | ']' :: rest' => some ([x], rest')
      | ',' :: rest' =>
        match readElems fuel rest' with
        | some (xs, rest'') => some (x :: xs, rest'')
        | none => none
      | _ => none
/-- Read the members of a non-empty object, up to and including the closing brace. -/
def readMembers : Nat → List Char → Option (JMap × List Char)
  | 0, _ => none
  | fuel + 1, cs =>
    match skipWs cs with
    | c :: rest =>
      if c.toNat = 34 then
        match readString [] rest with
        | none => none
        | some (k, rest1) =>
          match skipWs rest1 with
          | ':' :: rest2 =>
            match readValue fuel rest2 with
            | none => none
            | some (v, rest3) =>
              match skipWs rest3 with
              | '}' :: rest4 => some ([(k, v)], rest4)
              | ',' :: rest4 =>
                match readMembers fuel rest4 with
                | some (kvs, rest5) => some ((k, v) :: kvs, rest5)
                | none => none
              | _ => none
          | _ => none
      else none
    | [] => none
end

/-- Read a whole text as one JSON document; a number outside `float64` is a type error. -/
def parseJSON (s : String) : Res JSON :=
  match readValue (2 * s.length + 2) s.data with
  | some (v, rest) =>
    match skipWs rest with
    | [] => if v.decodable then .ok v else .err (.typeMismatch "number")
    | _ :: _ => .err (.invalidJSON "invalid character after top-level value")
  | none => .err (.invalidJSON "invalid JSON text")

/-! ## Validation variants

`FieldValidation` is `interface{}` in the source; the ten struct types that `ParseValidations`
stores in it are declared outside the two source files. -/

/-- Modelled from the spec: the bounds of a min/max validation ("min/max width/height",
"min/max bytes", "min/max numeric", "min/max length"); the declaration is not in the sources. -/
structure MinMax where
  min : Option Int
  max : Option Int

/-- Modelled from the spec: LinkContentType, "allowed content-type ids". -/
structure FieldValidationLink where
  LinkContentType : List String

/-- Modelled from the spec: MimeTypeGroup, "allowed mime groups". -/
structure FieldValidationMimeType where
  MimeTypes : List String

/-- Modelled from the spec: AssetImageDimensions, "min/max width/height". -/
structure FieldValidationDimension where
  Width : Option MinMax
  Height : Option MinMax

/-- Modelled from the spec: AssetFileSize, "min/max bytes". -/
structure FieldValidationFileSize where
  Size : Option MinMax

/-- Modelled from the spec: Unique, "boolean". -/
structure FieldValidationUnique where
  Unique : Bool

/-- Modelled from the spec: PredefinedValues, "allowed value set". -/
structure FieldValidationPredefinedValues where
  In : List JSON

/-- Modelled from the spec: Range, "min/max numeric". -/
structure FieldValidationRange where
  Range : Option MinMax

/-- Modelled from the spec: DateRange, "min/max date". -/
structure FieldValidationDate where
  Min : Option String
  Max : Option String

/-- Modelled from the spec: Size, "min/max length". -/
structure FieldValidationSize where
  Size : Option MinMax

/-- Modelled from the spec: Regexp, "pattern + flags". -/
structure FieldValidationRegex where
  Pattern : String
  Flags : String

/-- A value stored in a `[]FieldValidation` by `ParseValidations`: one of the ten struct types. -/
inductive FieldValidation where
  | Link (v : FieldValidationLink)
  | MimeType (v : FieldValidationMimeType)
  | Dimension (v : FieldValidationDimension)
  | FileSize (v : FieldValidationFileSize)
  | Unique (v : FieldValidationUnique)
  | PredefinedValues (v : FieldValidationPredefinedValues)
  | Range (v : FieldValidationRange)
  | Date (v : FieldValidationDate)
  | Size (v : FieldValidationSize)
  | Regex (v : FieldValidationRegex)

/-- The discriminating key of the rule that produces a variant. -/
def FieldValidation.key : FieldValidation → String
  | .Link _ => "linkContentType"
  | .MimeType _ => "linkMimetypeGroup"
  | .Dimension _ => "assetImageDimensions"
  | .FileSize _ => "assetFileSize"
  | .Unique _ => "unique"
  | .PredefinedValues _ => "in"
  | .Range _ => "range"
  | .Date _ => "dateRange"
  | .Size _ => "size"
  | .Regex _ => "regexp"

/-- The ten discriminating keys, in the order in which `ParseValidations` tests them. -/
def discriminatingKeys : List String :=
  ["linkContentType", "linkMimetypeGroup", "assetImageDimensions", "assetFileSize", "unique",
   "in", "range", "dateRange", "size", "regexp"]

/-- What `ParseValidations` takes from outside the two source files: the reading of JSON text
by `encoding/json` (which fails on text that is not JSON and on a number outside `float64`),
and `json.Unmarshal(byteArray, &v)` for each of the ten variant struct types, whose
declarations (and decoding methods, if any) are not in the sources.  A decoder receives the
document that `byteArray` spells. -/
structure Codec where
  parse : String → Res JSON
  Link : JSON → Res FieldValidationLink
  MimeType : JSON → Res FieldValidationMimeType
  Dimension : JSON → Res FieldValidationDimension
  FileSize : JSON → Res FieldValidationFileSize
  Unique : JSON → Res FieldValidationUnique
  PredefinedValues : JSON → Res FieldValidationPredefinedValues
  Range : JSON → Res FieldValidationRange
  Date : JSON → Res FieldValidationDate
  Size : JSON → Res FieldValidationSize
  Regex : JSON → Res FieldValidationRegex

/-! ## ParseValidations -/

/-- Lines 137-155 of `content_type.go`: the map `validation` and the bytes `byteArray` obtained
from one element of `data`.  A string is read as JSON text into the map and is itself the
bytes; a map is marshalled into the bytes (`json.Marshal` does not fail on a decoded JSON
value, so the error return of line 151 is not reached); for any other element both stay
nil. -/
def ParseValidations.element (C : Codec) (value : JSON) : Res (JMap × Option JSON) :=
  match value with
  | .str validationStr =>
    match C.parse validationStr with
    | .ok doc =>
      match unmarshalMap doc with
      | .ok validation => .ok (validation, some doc)
      | .err e => .err e
      | .panic m => .panic m
    | .err e => .err e
    | .panic m => .panic m
  | .obj validationMap => .ok (validationMap, some (JSON.Marshal (.obj validationMap)))
  | _ => .ok ([], none)

/-- One of the ten `if _, ok := validation[key]; ok { ... }` blocks: when the key is present,
decode the bytes into the variant and append it, or return the decoding error. -/
def ParseValidations.rule (key : String) (decode : JSON → Res FieldValidation)
    (validation : JMap) (byteArray : Option JSON) (validations : List FieldValidation) :
    Res (List FieldValidation) :=
  if hasKey validation key then
    match byteArray with
    | none => .err (.invalidJSON "unexpected end of JSON input")
    | some doc =>
      match decode doc with
      | .ok v => .ok (validations ++ [v])
      | .err e => .err e
      | .panic m => .panic m
  else .ok validations

/-- The ten key rules with their decoders, in source order (lines 157-245). -/
def ParseValidations.rules (C : Codec) : List (String × (JSON → Res FieldValidation)) :=
  [("linkContentType", fun b => (C.Link b).map FieldValidation.Link),
   ("linkMimetypeGroup", fun b => (C.MimeType b).map FieldValidation.MimeType),
   ("assetImageDimensions", fun b => (C.Dimension b).map FieldValidation.Dimension),
   ("assetFileSize", fun b => (C.FileSize b).map FieldValidation.FileSize),
   ("unique", fun b => (C.Unique b).map FieldValidation.Unique),
   ("in", fun b => (C.PredefinedValues b).map FieldValidation.PredefinedValues),
   ("range", fun b => (C.Range b).map FieldValidation.Range),
   ("dateRange", fun b => (C.Date b).map FieldValidation.Date),
   ("size", fun b => (C.Size b).map FieldValidation.Size),
   ("regexp", fun b => (C.Regex b).map FieldValidation.Regex)]

/-- Run a list of key rules one after the other on the same map and bytes. -/
def ParseValidations.runRules (rs : List (String × (JSON → Res FieldValidation)))
    (validation : JMap) (byteArray : Option JSON) (validations : List FieldValidation) :
    Res (List FieldValidation) :=
  match rs with
  | [] => .ok validations
  | (key, decode) :: rest =>
    (ParseValidations.rule key decode validation byteArray validations).bind
      (fun vs => ParseValidations.runRules rest validation byteArray vs)

/-- The body of the `for` loop of `ParseValidations` for one element: normalise it, then run
the ten key rules in source order, each appending to `validations`. -/
def ParseValidations.body (C : Codec) (validations : List FieldValidation) (value : JSON) :
    Res (List FieldValidation) :=
  (ParseValidations.element C value).bind (fun p =>
    ParseValidations.runRules (ParseValidations.rules C) p.1 p.2 validations)

/-- The `for _, value := range data` loop, with `validations` as the accumulator; an error
leaves the loop with `return nil, err`. -/
def ParseValidations.loop (C : Codec) (validations : List FieldValidation) :
    List JSON → Res (List FieldValidation)
  | [] => .ok validations
  | value :: rest =>
    match ParseValidations.body C validations value with
    | .ok vs => ParseValidations.loop C vs rest
    | .err e => .err e
    | .panic m => .panic m

/-- The function `ParseValidations(data)`: the loop started with `validations` nil. -/
def ParseValidations (C : Codec) (data : List JSON) : Res (List FieldValidation) :=
  ParseValidations.loop C [] data

/-- What the loop body yields for one element on its own, starting from no variants. -/
def decodeElement (C : Codec) (value : JSON) : Res (List FieldValidation) :=
  ParseValidations.body C [] value

/-! ## A concrete codec

The variant decoders below follow the shapes the spec gives for the ten variants. -/

/-- Modelled from the spec: the member of the validation object that a variant reads (the
variant struct declarations are not in the sources). -/
def memberOf (doc : JSON) (key : String) : Res (Option JSON) :=
  match doc with
  | .obj kvs => .ok (lookup kvs key)
  | .null => .ok none
  | _ => .err (.typeMismatch "object")

/-- Modelled from the spec: an optional integer bound of a min/max record. -/
def readBound (kvs : JMap) (key : String) : Res (Option Int) :=
  match lookup kvs key with
  | none => .ok none
  | some .null => .ok none
  | some (.num n) => .ok (some n)
  | some _ => .err (.typeMismatch key)

/-- Modelled from the spec: a min/max record. -/
def readMinMax (v : Option JSON) : Res (Option MinMax) :=
  match v with
  | none => .ok none
  | some .null => .ok none
  | some (.obj kvs) =>
    (readBound kvs "min").bind (fun lo => (readBound kvs "max").bind (fun hi =>
      .ok (some { min := lo, max := hi })))
  | some _ => .err (.typeMismatch "min/max")

/-- Modelled from the spec: a list of strings. -/
def readStrings : List JSON → Res (List String)
  | [] => .ok []
  | .str s :: rest => (readStrings rest).map (fun ss => s :: ss)
  | _ :: _ => .err (.typeMismatch "string")

/-- Modelled from the spec: an optional array of strings. -/
def readStringArray (v : Option JSON) : Res (List String) :=
  match v with
  | none => .ok []
  | some .null => .ok []
  | some (.arr xs) => readStrings xs
  | some _ => .err (.typeMismatch "array")

/-- Modelled from the spec: an optional string. -/
def readOptString (kvs : JMap) (key : String) : Res (Option String) :=
  match lookup kvs key with
  | none => .ok none
  | some .null => .ok none
  | some (.str s) => .ok (some s)
  | some _ => .err (.typeMismatch key)

/-- Modelled from the spec: decoders for the ten variants, with `parseJSON` reading text. -/
def specCodec : Codec where
  parse := parseJSON
  Link := fun b => (memberOf b "linkContentType").bind (fun v =>
    (readStringArray v).map (fun ids => { LinkContentType := ids }))
  MimeType := fun b => (memberOf b "linkMimetypeGroup").bind (fun v =>
    (readStringArray v).map (fun gs => { MimeTypes := gs }))
  Dimension := fun b => (memberOf b "assetImageDimensions").bind (fun v =>
    match v with
    | none => .ok { Width := none, Height := none }
    | some .null => .ok { Width := none, Height := none }
    | some (.obj kvs) =>
      (readMinMax (lookup kvs "width")).bind (fun w =>
        (readMinMax (lookup kvs "height")).map (fun h => { Width := w, Height := h }))
    | some _ => .err (.typeMismatch "assetImageDimensions"))
  FileSize := fun b => (memberOf b "assetFileSize").bind (fun v =>
    (readMinMax v).map (fun r => { Size := r }))
  Unique := fun b => (memberOf b "unique").bind (fun v =>
    match v with
    | none => .ok { Unique := false }
    | some .null => .ok { Unique := false }
    | some (.bool u) => .ok { Unique := u }
    | some _ => .err (.typeMismatch "unique"))
  PredefinedValues := fun b => (memberOf b "in").bind (fun v =>
    match v with
    | none => .ok { In := [] }
    | some .null => .ok { In := [] }
    | some (.arr xs) => .ok { In := xs }
    | some _ => .err (.typeMismatch "in"))
  Range := fun b => (memberOf b "range").bind (fun v =>
    (readMinMax v).map (fun r => { Range := r }))
  Date := fun b => (memberOf b "dateRange").bind (fun v =>
    match v with
    | none => .ok { Min := none, Max := none }
    | some .null => .ok { Min := none, Max := none }
    | some (.obj kvs) =>
      (readOptString kvs "min").bind (fun lo =>
        (readOptString kvs "max").map (fun hi => { Min := lo, Max := hi }))
    | some _ => .err (.typeMismatch "dateRange"))
  Size := fun b => (memberOf b "size").bind (fun v =>
    (readMinMax v).map (fun r => { Size := r }))
  Regex := fun b => (memberOf b "regexp").bind (fun v =>
    match v with
    | none => .ok { Pattern := "", Flags := "" }
    | some .null => .ok { Pattern := "", Flags := "" }
    | some (.obj kvs) =>
      (readOptString kvs "pattern").bind (fun p =>
        (readOptString kvs "flags").map (fun f =>
          { Pattern := p.getD "", Flags := f.getD "" }))
    | some _ => .err (.typeMismatch "regexp"))

/-! ## Field decoding -/

/-- The struct `FieldTypeArrayItem` (lines 252-256); `Typ` is its field `Type`. -/
structure FieldTypeArrayItem where
  Typ : String := ""
  Validations : List FieldValidation := []
  LinkType : String := ""

/-- The struct `Field` (lines 54-65); `Typ` is its field `Type`, and a nil `Items` is `none`. -/
structure Field where
  ID : String := ""
  Name : String := ""
  Typ : String := ""
  LinkType : String := ""
  Items : Option FieldTypeArrayItem := none
  Required : Bool := false
  Localized : Bool := false
  Disabled : Bool := false
  Omitted : Bool := false
  Validations : List FieldValidation := []

/-- The single-value type assertion `val.(string)`: it panics on any other dynamic type. -/
def assertString (val : JSON) : Res String :=
  match val with
  | .str s => .ok s
  | _ => .panic "interface conversion: interface {} is not string"

/-- The single-value type assertion `val.(bool)`. -/
def assertBool (val : JSON) : Res Bool :=
  match val with
  | .bool b => .ok b
  | _ => .panic "interface conversion: interface {} is not bool"

/-- The single-value type assertion `val.([]interface{})`. -/
def assertArray (val : JSON) : Res (List JSON) :=
  match val with
  | .arr xs => .ok xs
  | _ => .panic "interface conversion: interface {} is not []interface {}"

/-- One `if val, ok := payload[key]; ok { ... }` block: run the update when the key is present,
leave the receiver as it is when the key is absent. -/
def whenPresent {α : Type} (payload : JMap) (key : String) (update : JSON → α → Res α)
    (recv : α) : Res α :=
  match lookup payload key with
  | some val => update val recv
  | none => .ok recv

/-- The method `FieldTypeArrayItem.UnmarshalJSON` (lines 259-283): the receiver after a normal return.
The third block reads the key `linktype`, as the source does. -/
def FieldTypeArrayItem.UnmarshalJSON (C : Codec) (item : FieldTypeArrayItem) (data : JSON) :
    Res FieldTypeArrayItem :=
  (unmarshalPayload data).bind (fun payload =>
  (whenPresent payload "type"
    (fun val item => (assertString val).map (fun s => { item with Typ := s })) item).bind
    (fun item =>
  (whenPresent payload "validations"
    (fun val item => ((assertArray val).bind (fun xs => ParseValidations C xs)).map
      (fun validations => { item with Validations := validations })) item).bind
    (fun item =>
  whenPresent payload "linktype"
    (fun val item => (assertString val).map (fun s => { item with LinkType := s })) item)))

/-- The method `Field.UnmarshalJSON` (lines 68-130): the receiver after a normal return.
The `items` block marshals the value (which cannot fail on a decoded JSON value) and decodes
the bytes into a fresh `FieldTypeArrayItem`, through `FieldTypeArrayItem.UnmarshalJSON`. -/
def Field.UnmarshalJSON (C : Codec) (field : Field) (data : JSON) : Res Field :=
  (unmarshalPayload data).bind (fun payload =>
  (whenPresent payload "id"
    (fun val field => (assertString val).map (fun s => { field with ID := s })) field).bind
    (fun field =>
  (whenPresent payload "name"
    (fun val field => (assertString val).map (fun s => { field with Name := s })) field).bind
    (fun field =>
  (whenPresent payload "type"
    (fun val field => (assertString val).map (fun s => { field with Typ := s })) field).bind
    (fun field =>
  (whenPresent payload "linkType"
    (fun val field => (assertString val).map (fun s => { field with LinkType := s })) field).bind
    (fun field =>
  (whenPresent payload "items"
    (fun val field => (FieldTypeArrayItem.UnmarshalJSON C {} (JSON.Marshal val)).map
      (fun fieldTypeArrayItem => { field with Items := some fieldTypeArrayItem })) field).bind
    (fun field =>
  (whenPresent payload "required"
    (fun val field => (assertBool val).map (fun b => { field with Required := b })) field).bind
    (fun field =>
  (whenPresent payload "localized"
    (fun val field => (assertBool val).map (fun b => { field with Localized := b })) field).bind
    (fun field =>
  (whenPresent payload "disabled"
    (fun val field => (assertBool val).map (fun b => { field with Disabled := b })) field).bind
    (fun field =>
  (whenPresent payload "omitted"
    (fun val field => (assertBool val).map (fun b => { field with Omitted := b })) field).bind
    (fun field =>
  whenPresent payload "validations"
    (fun val field => ((assertArray val).bind (fun xs => ParseValidations C xs)).map
      (fun validations => { field with Validations := validations })) field))))))))))

/-! ## Resources and requests -/

/-- Modelled from the spec: the system metadata of a linked resource, of which the code reads
the identity only (`entry.Sys.ContentType.Sys.ID`, `entry.Sys.Space.Sys.ID`). -/
structure LinkSys where
  ID : String

/-- Modelled from the spec: a reference held in system metadata (the content type of an entry,
its space); the pointer `Sys` of the referenced resource may be nil. -/
structure Link where
  Sys : Option LinkSys

/-- Modelled from the spec: system metadata, "server-managed identity/version" with the
content-type and space references of an entry; the struct declaration is not in the sources. -/
structure Sys where
  ID : String
  Version : Int
  ContentType : Option Link
  Space : Option Link

/-- The struct `ContentType` (lines 16-22); a nil `Sys` is `none`. -/
structure ContentType where
  Sys : Option Sys
  Name : String
  Description : String
  Fields : List Field
  DisplayField : String

/-- A Go value held in `Entry.Fields`: one `json.Marshal` can write, or one it rejects (a
channel, a function). -/
inductive GoValue where
  | json (v : JSON)
  | unsupported

/-- The struct `Entry` (lines 15-19 of `entry.go`). -/
structure Entry where
  locale : String
  Sys : Option Sys
  Fields : List (String × GoValue)

/-- The method `ContentType.GetVersion` (lines 286-293). -/
def ContentType.GetVersion (ct : ContentType) : Int :=
  match ct.Sys with
  | some sys => sys.Version
  | none => 1

/-- The method `Entry.GetVersion` (lines 22-29 of `entry.go`). -/
def Entry.GetVersion (entry : Entry) : Int :=
  match entry.Sys with
  | some sys => sys.Version
  | none => 1

/-- The library function `strconv.Itoa`: the decimal rendering of an integer. -/
def Itoa (n : Int) : String :=
  match n with
  | .ofNat m => Nat.repr m
  | .negSucc m => "-" ++ Nat.repr (m + 1)

/-- An HTTP request as far as this package determines it. -/
structure Request where
  method : String
  path : String
  body : Option JSON
  header : List (String × String)

/-- The call `req.Header.Set(key, value)`: the key then holds exactly this value.  The two
header names used here are already in canonical form. -/
def Request.setHeader (req : Request) (key value : String) : Request :=
  { req with header := (key, value) :: req.header.filter (fun kv => !decide (kv.1 = key)) }

/-- The call `req.Header.Get(key)`: the value of the header, if it is set. -/
def Request.getHeader (req : Request) (key : String) : Option String :=
  (req.header.find? (fun kv => decide (kv.1 = key))).map (fun kv => kv.2)

/-- The collaborators of the services: the environment segment `getEnvPath(service.c)`, the
headers `newRequest` puts on every request, when `newRequest` fails, `json.Marshal` on a
content type (whose `Sys` and validation types are declared outside the sources), and the
transport `c.do`, of which only the returned error matters here. -/
structure Client where
  envPath : String
  header : List (String × String)
  requestErr : String → String → Option String
  marshalContentType : ContentType → Res JSON
  transport : Request → Option Err

/-- Modelled from the spec: `newRequest`, which "builds a request from (method, path, query,
body, headers)"; it is not in the sources.  The callers modelled here pass no query. -/
def newRequest (c : Client) (method path : String) (body : Option JSON) : Res Request :=
  match c.requestErr method path with
  | some msg => .err (.request msg)
  | none => .ok { method := method, path := path, body := body, header := c.header }

/-- How a service call ends: it panics, it returns an error before any request is handed to
the transport, or it hands a request to `c.do` and returns what `c.do` returns. -/
inductive Outcome where
  | panic (msg : String)
  | failed (e : Err)
  | sent (req : Request) (result : Option Err)

/-- The run-time panic of reading a field through a nil pointer. -/
def nilDeref : String := "invalid memory address or nil pointer dereference"

/-- Set the version header on a built request and hand it to the transport. -/
def sendVersioned (c : Client) (req : Request) (version : Int) : Outcome :=
  let req := req.setHeader "X-Contentful-Version" (Itoa version)
  .sent req (c.transport req)

/-- The method `ContentTypesService.Upsert` (lines 329-354); the context argument plays no
part in what is built. -/
def ContentTypesService.Upsert (c : Client) (spaceID : String) (ct : ContentType) : Outcome :=
  match c.marshalContentType ct with
  | .err e => .failed e
  | .panic m => .panic m
  | .ok bytesArray =>
    let target : String × String :=
      match ct.Sys with
      | some sys =>
        if sys.ID ≠ "" then
          ("/spaces/" ++ spaceID ++ c.envPath ++ "/content_types/" ++ sys.ID, "PUT")
        else ("/spaces/" ++ spaceID ++ c.envPath ++ "/content_types", "POST")
      | none => ("/spaces/" ++ spaceID ++ c.envPath ++ "/content_types", "POST")
    match newRequest c target.2 target.1 (some bytesArray) with
    | .err e => .failed e
    | .panic m => .panic m
    | .ok req => sendVersioned c req ct.GetVersion

/-- The shared shape of `Delete`, `Activate`, `Deactivate`, `Publish` and `Unpublish` on a
resource: the path reads `Sys.ID` and the header reads `Sys.Version`, both through the pointer
`Sys` without a nil check. -/
def versionedCall (c : Client) (method : String) (path : String → String) (sys : Option Sys) :
    Outcome :=
  match sys with
  | none => .panic nilDeref
  | some sys =>
    match newRequest c method (path sys.ID) none with
    | .err e => .failed e
    | .panic m => .panic m
    | .ok req => sendVersioned c req sys.Version

/-- The method `ContentTypesService.Delete` (lines 357-370). -/
def ContentTypesService.Delete (c : Client) (spaceID : String) (ct : ContentType) : Outcome :=
  versionedCall c "DELETE"
    (fun id => "/spaces/" ++ spaceID ++ c.envPath ++ "/content_types/" ++ id) ct.Sys

/-- The method `ContentTypesService.Activate` (lines 373-385). -/
def ContentTypesService.Activate (c : Client) (spaceID : String) (ct : ContentType) : Outcome :=
  versionedCall c "PUT"
    (fun id => "/spaces/" ++ spaceID ++ c.envPath ++ "/content_types/" ++ id ++ "/published")
    ct.Sys

/-- The method `ContentTypesService.Deactivate` (lines 388-400). -/
def ContentTypesService.Deactivate (c : Client) (spaceID : String) (ct : ContentType) :
    Outcome :=
  versionedCall c "DELETE"
    (fun id => "/spaces/" ++ spaceID ++ c.envPath ++ "/content_types/" ++ id ++ "/published")
    ct.Sys

/-- The values of `Entry.Fields` as JSON, when `json.Marshal` can write all of them. -/
def encodeFields : List (String × GoValue) → Res JMap
  | [] => .ok []
  | (k, .json v) :: rest => (encodeFields rest).map (fun kvs => (k, v) :: kvs)
  | (_, .unsupported) :: _ => .err (.marshal "json: unsupported type")

/-- The call `json.Marshal(map[string]interface{}{"fields": entry.Fields})` (lines 136-140 of
`entry.go`). -/
def marshalFieldsOnly (fields : List (String × GoValue)) : Res JSON :=
  (encodeFields fields).map (fun kvs => JSON.Marshal (.obj [("fields", .obj kvs)]))

/-- The error of line 147 of `entry.go`. -/
def missingContentType : Err := .errorf "creating/updating an entry requires a content type"

/-- The method `EntriesService.Upsert` (lines 135-170 of `entry.go`).  Line 146 reads
`entry.Sys.ContentType` and line 167 reads `entry.Sys.ContentType.Sys.ID`, each through
pointers that are not checked there. -/
def EntriesService.Upsert (c : Client) (spaceID : String) (entry : Entry) : Outcome :=
  match marshalFieldsOnly entry.Fields with
  | .err e => .failed e
  | .panic m => .panic m
  | .ok bytesArray =>
    match entry.Sys with
    | none => .panic nilDeref
    | some sys0 =>
      match sys0.ContentType with
      | none => .failed missingContentType
      | some contentType =>
        let target : String × String :=
          match entry.Sys with
          | some sys =>
            if sys.ID ≠ "" then
              ("/spaces/" ++ spaceID ++ c.envPath ++ "/entries/" ++ sys.ID, "PUT")
            else ("/spaces/" ++ spaceID ++ c.envPath ++ "/entries", "POST")
          | none => ("/spaces/" ++ spaceID ++ c.envPath ++ "/entries", "POST")
        match newRequest c target.2 target.1 (some bytesArray) with
        | .err e => .failed e
        | .panic m => .panic m
        | .ok req =>
          let req := req.setHeader "X-Contentful-Version" (Itoa entry.GetVersion)
          match contentType.Sys with
          | none => .panic nilDeref
          | some ctSys =>
            let req := req.setHeader "X-Contentful-Content-Type" ctSys.ID
            .sent req (c.transport req)

/-- The method `EntriesService.Delete` (lines 122-132 of `entry.go`): it receives the entry id only. -/
def EntriesService.Delete (c : Client) (spaceID : String) (entryID : String) : Outcome :=
  match newRequest c "DELETE" ("/spaces/" ++ spaceID ++ c.envPath ++ "/entries/" ++ entryID)
      none with
  | .err e => .failed e
  | .panic m => .panic m
  | .ok req => .sent req (c.transport req)

/-- The method `EntriesService.Publish` (lines 173-186 of `entry.go`). -/
def EntriesService.Publish (c : Client) (spaceID : String) (entry : Entry) : Outcome :=
  versionedCall c "PUT"
    (fun id => "/spaces/" ++ spaceID ++ c.envPath ++ "/entries/" ++ id ++ "/published") entry.Sys

/-- The method `EntriesService.Unpublish` (lines 189-202 of `entry.go`). -/
def EntriesService.Unpublish (c : Client) (spaceID : String) (entry : Entry) : Outcome :=
  versionedCall c "DELETE"
    (fun id => "/spaces/" ++ spaceID ++ c.envPath ++ "/entries/" ++ id ++ "/published") entry.Sys

/-- A client for concrete runs: no environment, one default header, `newRequest` and the
transport always succeed, and a content type marshals to an object holding its name. -/
def demoClient : Client where
  envPath := ""
  header := [("Content-Type", "application/vnd.contentful.management.v1+json")]
  requestErr := fun _ _ => none
  marshalContentType := fun ct => .ok (.obj [("name", .str ct.Name)])
  transport := fun _ => none

/-! ## Field resolution -/

/-- The struct `EntryField`: the stored value of an entry field (nil when the entry has no
such field) with the declared type resolved for it. -/
structure EntryField where
  value : Option GoValue
  dataType : String

/-- The map read `entry.Fields[key]`: the value stored under the key, nil when absent. -/
def fieldValue (fields : List (String × GoValue)) (key : String) : Option GoValue :=
  match fields with
  | [] => none
  | (k, v) :: rest =>
    match fieldValue rest key with
    | some w => some w
    | none => if k = key then some v else none

/-- The inner loop of `GetEntryKey` (lines 47-53 of `entry.go`): every field whose id is the
key writes its type into `ef.dataType`; the loop does not stop at a match. -/
def GetEntryKey.scanFields (key : String) : List Field → EntryField → EntryField
  | [], ef => ef
  | field :: rest, ef =>
    if field.ID ≠ key then GetEntryKey.scanFields key rest ef
    else GetEntryKey.scanFields key rest { ef with dataType := field.Typ }

/-- The outer loop of `GetEntryKey` (lines 42-54 of `entry.go`).  The comparison of line 43
reads `ct.Sys.ID` and `entry.Sys.ContentType.Sys.ID` through pointers it does not check. -/
def GetEntryKey.scanTypes (sys : Sys) (key : String) :
    List ContentType → EntryField → Res EntryField
  | [], ef => .ok ef
  | ct :: rest, ef =>
    match ct.Sys with
    | none => .panic nilDeref
    | some ctSys =>
      match sys.ContentType with
      | none => .panic nilDeref
      | some contentType =>
        match contentType.Sys with
        | none => .panic nilDeref
        | some contentTypeSys =>
          if ctSys.ID ≠ contentTypeSys.ID then GetEntryKey.scanTypes sys key rest ef
          else GetEntryKey.scanTypes sys key rest (GetEntryKey.scanFields key ct.Fields ef)

/-- The method `EntriesService.GetEntryKey` (lines 32-57 of `entry.go`).  The argument
`firstPage` stands for `service.c.ContentTypes.List(spaceID).Next()` followed by
`col.ToContentType()`: the collection type is not in the sources, and the spec gives it as the
collaborator that fetches the next page of content types of a space. -/
def EntriesService.GetEntryKey (firstPage : String → Res (List ContentType)) (entry : Entry)
    (key : String) : Res EntryField :=
  let ef : EntryField := { value := fieldValue entry.Fields key, dataType := "" }
  match entry.Sys with
  | none => .panic nilDeref
  | some sys =>
    match sys.Space with
    | none => .panic nilDeref
    | some space =>
      match space.Sys with
      | none => .panic nilDeref
      | some spaceSys =>
        match firstPage spaceSys.ID with
        | .err e => .err e
        | .panic m => .panic m
        | .ok page => GetEntryKey.scanTypes sys key page ef

/-- The identity of a fetched content type, when it has system metadata. -/
def ContentType.id? (ct : ContentType) : Option String :=
  ct.Sys.map (fun sys => sys.ID)

/-! ## Further definitions for the claims -/

/-- The keys that `Field.UnmarshalJSON` reads from the payload. -/
def recognisedKeys : List String :=
  ["id", "name", "type", "linkType", "items", "required", "localized", "disabled", "omitted",
   "validations"]

/-- The document `json.Marshal` writes for a `FieldTypeArrayItem` without validations, from
the struct tags of lines 252-256: the keys `type` and `linkType`, each left out when its
string is empty, and no `validations` key. -/
def marshalArrayItem (typ linkType : String) : JSON :=
  .obj ((if typ = "" then [] else [("type", .str typ)])
    ++ (if linkType = "" then [] else [("linkType", .str linkType)]))

/-- Fill a boolean struct field from the members of an object the way `encoding/json` fills a
struct without a decoding method of its own: the members are visited in the order of the
text, each member with the field's key is decoded into the field, and one of the wrong shape
is a type error even when a later member with the same key fits. -/
def visitBool (key : String) : JMap → Bool → Res Bool
  | [], b => .ok b
  | (k, v) :: rest, b =>
    if k = key then
      match v with
      | .bool b' => visitBool key rest b'
      | .null => visitBool key rest b
      | _ => .err (.typeMismatch key)
    else visitBool key rest b

/-- The codec `specCodec` with the Unique variant decoded member by member, in the order of
the bytes. -/
def sequentialCodec : Codec :=
  { specCodec with
    Unique := fun b =>
      match b with
      | .obj kvs => (visitBool "unique" kvs false).map (fun u => { Unique := u })
      | .null => .ok { Unique := false }
      | _ => .err (.typeMismatch "object") }

/-- A page fetcher for concrete runs: one page holding the content type blogPost with the
fields title (Symbol) and body (Text), and the content type author with the field title
(Text). -/
def demoPage (_spaceID : String) : Res (List ContentType) :=
  .ok [{ Sys := some { ID := "author", Version := 2, ContentType := none, Space := none },
         Name := "Author", Description := "",
         Fields := [{ ID := "title", Name := "Title", Typ := "Text" }],
         DisplayField := "title" },
       { Sys := some { ID := "blogPost", Version := 7, ContentType := none, Space := none },
         Name := "Blog post", Description := "",
         Fields := [{ ID := "title", Name := "Title", Typ := "Symbol" },
                    { ID := "body", Name := "Body", Typ := "Text" }],
         DisplayField := "title" }]

/-- An entry of content type blogPost in the space sp, with a stored title. -/
def demoEntry : Entry :=
  { locale := "",
    Sys := some { ID := "post1", Version := 3,
                  ContentType := some { Sys := some { ID := "blogPost" } },
                  Space := some { Sys := some { ID := "sp" } } },
    Fields := [("title", .json (.str "Hello"))] }

/-! ## Lemmas on outcomes -/

theorem Res.bind_eq_ok {α β : Type} {r : Res α} {f : α → Res β} {b : β}
    (h : r.bind f = .ok b) : ∃ a, r = .ok a ∧ f a = .ok b := by
  cases r with
  | ok a => exact ⟨a, rfl, h⟩
  | err e => simp [Res.bind] at h
  | panic m => simp [Res.bind] at h

theorem Res.map_eq_ok {α β : Type} {r : Res α} {f : α → β} {b : β}
    (h : r.map f = .ok b) : ∃ a, r = .ok a ∧ f a = b := by
  cases r with
  | ok a => simp [Res.map] at h; exact ⟨a, rfl, h⟩
  | err e => simp [Res.map] at h
  | panic m => simp [Res.map] at h

/-! ## Lemmas on ParseValidations -/

theorem rule_acc (key : String) (decode : JSON → Res FieldValidation) (m : JMap)
    (b : Option JSON) (acc : List FieldValidation) :
    ParseValidations.rule key decode m b acc
      = (ParseValidations.rule key decode m b []).map (fun vs => acc ++ vs) := by
  unfold ParseValidations.rule
  split
  · cases b with
    | none => rfl
    | some doc => simp only []; cases h : decode doc <;> simp [Res.map]
  · simp [Res.map]

theorem runRules_acc (rs : List (String × (JSON → Res FieldValidation))) (m : JMap)
    (b : Option JSON) (acc : List FieldValidation) :
    ParseValidations.runRules rs m b acc
      = (ParseValidations.runRules rs m b []).map (fun vs => acc ++ vs) := by
  induction rs generalizing acc with
  | nil => simp [ParseValidations.runRules, Res.map]
  | cons r rest ih =>
    obtain ⟨key, decode⟩ := r
    simp only [ParseValidations.runRules]
    rw [rule_acc key decode m b acc]
    cases h : ParseValidations.rule key decode m b [] with
    | ok vs =>
      simp only [Res.map, Res.bind]
      rw [ih (acc ++ vs), ih vs]
      cases ParseValidations.runRules rest m b [] <;> simp [Res.map]
    | err e => simp [Res.map, Res.bind]
    | panic msg => simp [Res.map, Res.bind]

theorem body_acc (C : Codec) (acc : List FieldValidation) (value : JSON) :
    ParseValidations.body C acc value = (decodeElement C value).map (fun vs => acc ++ vs) := by
  unfold decodeElement ParseValidations.body
  cases ParseValidations.element C value with
  | ok p => simp only [Res.bind]; exact runRules_acc _ _ _ _
  | err e => rfl
  | panic msg => rfl

theorem loop_acc (C : Codec) (acc : List FieldValidation) (data : List JSON) :
    ParseValidations.loop C acc data
      = (ParseValidations.loop C [] data).map (fun vs => acc ++ vs) := by
  induction data generalizing acc with
  | nil => simp [ParseValidations.loop, Res.map]
  | cons value rest ih =>
    simp only [ParseValidations.loop]
    rw [body_acc C acc value, body_acc C [] value]
    cases decodeElement C value with
    | ok vs =>
      simp only [Res.map, List.nil_append]
      rw [ih (acc ++ vs), ih vs]
      cases ParseValidations.loop C [] rest <;> simp [Res.map]
    | err e => simp [Res.map]
    | panic msg => simp [Res.map]

theorem ParseValidations_cons (C : Codec) (value : JSON) (rest : List JSON) :
    ParseValidations C (value :: rest)
      = (decodeElement C value).bind (fun vs =>
          (ParseValidations C rest).map (fun ws => vs ++ ws)) := by
  unfold ParseValidations
  simp only [ParseValidations.loop]
  rw [body_acc C [] value]
  cases decodeElement C value with
  | ok vs => simp only [Res.map, Res.bind, List.nil_append]; exact loop_acc C vs rest
  | err e => rfl
  | panic msg => rfl

theorem ParseValidations_append (C : Codec) (xs ys : List JSON) :
    ParseValidations C (xs ++ ys)
      = (ParseValidations C xs).bind (fun vs =>
          (ParseValidations C ys).map (fun ws => vs ++ ws)) := by
  induction xs with
  | nil =>
    simp only [List.nil_append]
    show _ = (Res.ok []).bind _
    simp only [Res.bind, List.nil_append]
    cases ParseValidations C ys <;> simp [Res.map]
  | cons x rest ih =>
    rw [List.cons_append, ParseValidations_cons, ParseValidations_cons, ih]
    cases decodeElement C x with
    | ok vs =>
      simp only [Res.bind]
      cases ParseValidations C rest with
      | ok ws =>
        simp only [Res.bind, Res.map]
        cases ParseValidations C ys <;> simp [Res.map]
      | err e => rfl
      | panic msg => rfl
    | err e => rfl
    | panic msg => rfl

theorem rule_absent (key : String) (decode : JSON → Res FieldValidation) (m : JMap)
    (b : Option JSON) (acc : List FieldValidation) (h : hasKey m key = false) :
    ParseValidations.rule key decode m b acc = .ok acc := by
  simp [ParseValidations.rule, h]

theorem runRules_absent (rs : List (String × (JSON → Res FieldValidation))) (m : JMap)
    (b : Option JSON) (acc : List FieldValidation)
    (h : ∀ k ∈ rs.map Prod.fst, hasKey m k = false) :
    ParseValidations.runRules rs m b acc = .ok acc := by
  induction rs with
  | nil => rfl
  | cons r rest ih =>
    obtain ⟨key, decode⟩ := r
    simp only [ParseValidations.runRules]
    rw [rule_absent key decode m b acc (h key (by simp))]
    simp only [Res.bind]
    exact ih (fun k hk => h k (by simp [List.mem_map] at hk ⊢; exact Or.inr hk))

theorem runRules_single (rs : List (String × (JSON → Res FieldValidation))) (m : JMap)
    (doc : JSON) (key : String) (decode : JSON → Res FieldValidation) (v : FieldValidation)
    (hnd : (rs.map Prod.fst).Nodup) (hmem : (key, decode) ∈ rs) (hk : hasKey m key = true)
    (habs : ∀ k ∈ rs.map Prod.fst, k ≠ key → hasKey m k = false)
    (hd : decode doc = .ok v) (acc : List FieldValidation) :
    ParseValidations.runRules rs m (some doc) acc = .ok (acc ++ [v]) := by
  induction rs generalizing acc with
  | nil => simp at hmem
  | cons r rest ih =>
    obtain ⟨k1, d1⟩ := r
    simp only [List.map_cons, List.nodup_cons] at hnd
    simp only [ParseValidations.runRules]
    rcases List.mem_cons.mp hmem with heq | hin
    · have hk1 : k1 = key := (congrArg Prod.fst heq).symm
      have hd1 : d1 = decode := (congrArg Prod.snd heq).symm
      subst hk1; subst hd1
      have hrule : ParseValidations.rule k1 d1 m (some doc) acc = .ok (acc ++ [v]) := by
        simp [ParseValidations.rule, hk, hd]
      rw [hrule]
      simp only [Res.bind]
      apply runRules_absent
      intro k hkmem
      apply habs k (by simp [hkmem])
      intro hkk
      exact hnd.1 (hkk ▸ hkmem)
    · have hne : k1 ≠ key := by
        intro hkk
        apply hnd.1
        rw [hkk]
        exact List.mem_map_of_mem Prod.fst hin
      rw [rule_absent k1 d1 m (some doc) acc (habs k1 (by simp) hne)]
      simp only [Res.bind]
      exact ih hnd.2 hin (fun k hkm => habs k (by simp [hkm])) acc

theorem rules_keys (C : Codec) :
    (ParseValidations.rules C).map Prod.fst = discriminatingKeys := rfl

theorem rules_key_of_ok (C : Codec) (key : String) (decode : JSON → Res FieldValidation)
    (hmem : (key, decode) ∈ ParseValidations.rules C) (doc : JSON) (v : FieldValidation)
    (hd : decode doc = .ok v) : v.key = key := by
  simp only [ParseValidations.rules, List.mem_cons, Prod.mk.injEq, List.mem_singleton,
    List.not_mem_nil, or_false] at hmem
  rcases hmem with h | h | h | h | h | h | h | h | h | h <;>
  · obtain ⟨hk, hdec⟩ := h
    subst hk; subst hdec
    obtain ⟨a, _, ha⟩ := Res.map_eq_ok hd
    subst ha
    rfl

theorem runRules_keys (rs : List (String × (JSON → Res FieldValidation))) (m : JMap)
    (b : Option JSON)
    (hkey : ∀ key decode, (key, decode) ∈ rs → ∀ doc v, decode doc = .ok v → v.key = key)
    (vs : List FieldValidation) (h : ParseValidations.runRules rs m b [] = .ok vs) :
    vs.map FieldValidation.key = (rs.map Prod.fst).filter (fun k => hasKey m k) := by
  induction rs generalizing vs with
  | nil =>
    simp only [ParseValidations.runRules, Res.ok.injEq] at h
    subst h; rfl
  | cons r rest ih =>
    obtain ⟨k1, d1⟩ := r
    simp only [ParseValidations.runRules] at h
    obtain ⟨a, ha, hrest⟩ := Res.bind_eq_ok h
    rw [runRules_acc] at hrest
    obtain ⟨ws, hws, hvs⟩ := Res.map_eq_ok hrest
    have ihws := ih (fun key decode hm => hkey key decode (List.mem_cons_of_mem _ hm)) ws hws
    subst hvs
    simp only [List.map_append, List.map_cons, List.filter_cons, ihws]
    unfold ParseValidations.rule at ha
    by_cases hk : hasKey m k1 = true
    · simp only [hk, if_true] at ha ⊢
      cases b with
      | none => simp at ha
      | some doc =>
        simp only [] at ha
        cases hd : d1 doc with
        | ok v =>
          simp only [hd, Res.ok.injEq, List.nil_append] at ha
          subst ha
          simp [hkey k1 d1 (List.mem_cons_self _ _) doc v hd]
        | err e => simp [hd] at ha
        | panic msg => simp [hd] at ha
    · have hk' : hasKey m k1 = false := by simpa using hk
      simp only [hk', Bool.false_eq_true, if_false, Res.ok.injEq] at ha ⊢
      subst ha
      simp

theorem discriminatingKeys_nodup : discriminatingKeys.Nodup := by
  decide

theorem ParseValidations_singleton_obj (C : Codec) (o : JMap) :
    ParseValidations C [.obj o]
      = ParseValidations.runRules (ParseValidations.rules C) o
          (some (JSON.Marshal (.obj o))) [] := by
  unfold ParseValidations
  simp only [ParseValidations.loop, ParseValidations.body, ParseValidations.element, Res.bind]
  cases ParseValidations.runRules (ParseValidations.rules C) o
      (some (JSON.Marshal (.obj o))) [] <;> rfl

theorem decodeElement_ok_of_ParseValidations_ok (C : Codec) (data : List JSON)
    (vs : List FieldValidation) (h : ParseValidations C data = .ok vs) :
    ∀ x ∈ data, ∃ ws, decodeElement C x = .ok ws := by
  induction data generalizing vs with
  | nil => intro x hx; simp at hx
  | cons y rest ih =>
    rw [ParseValidations_cons] at h
    obtain ⟨a, ha, hrest⟩ := Res.bind_eq_ok h
    obtain ⟨ws, hws, _⟩ := Res.map_eq_ok hrest
    intro x hx
    rcases List.mem_cons.mp hx with hxy | hxr
    · subst hxy; exact ⟨a, ha⟩
    · exact ih ws hws x hxr

theorem ParseValidations_ok_of_decodeElement_ok (C : Codec) (data : List JSON)
    (h : ∀ x ∈ data, ∃ ws, decodeElement C x = .ok ws) :
    ∃ vs, ParseValidations C data = .ok vs := by
  induction data with
  | nil => exact ⟨[], rfl⟩
  | cons y rest ih =>
    obtain ⟨a, ha⟩ := h y (by simp)
    obtain ⟨ws, hws⟩ := ih (fun x hx => h x (by simp [hx]))
    exact ⟨a ++ ws, by rw [ParseValidations_cons, ha, hws]; rfl⟩

/-! ## Lemmas on field decoding -/

theorem runRules_ok_decodes (rs : List (String × (JSON → Res FieldValidation))) (m : JMap)
    (doc : JSON) (acc vs : List FieldValidation)
    (h : ParseValidations.runRules rs m (some doc) acc = .ok vs) :
    ∀ key decode, (key, decode) ∈ rs → hasKey m key = true → ∃ v, decode doc = .ok v := by
  induction rs generalizing acc with
  | nil => intro key decode hm; simp at hm
  | cons r rest ih =>
    obtain ⟨k1, d1⟩ := r
    simp only [ParseValidations.runRules] at h
    obtain ⟨a, ha, hrest⟩ := Res.bind_eq_ok h
    intro key decode hm hk
    rcases List.mem_cons.mp hm with heq | hin
    · have hk1 : k1 = key := (congrArg Prod.fst heq).symm
      have hd1 : d1 = decode := (congrArg Prod.snd heq).symm
      subst hk1; subst hd1
      simp only [ParseValidations.rule, hk, if_true] at ha
      cases hd : d1 doc with
      | ok v => exact ⟨v, rfl⟩
      | err e => simp [hd] at ha
      | panic msg => simp [hd] at ha
    · exact ih a hrest key decode hin hk

theorem unmarshalPayload_obj_ok (o p : JMap) (h : unmarshalPayload (.obj o) = .ok p) :
    p = o ∧ decodableMembers o = true := by
  simp only [unmarshalPayload, unmarshalMap] at h
  by_cases hd : decodableMembers o = true
  · simp only [hd, if_true, Res.ok.injEq] at h
    exact ⟨h.symm, hd⟩
  · simp [hd] at h

theorem unmarshalPayload_obj (o : JMap) (h : decodableMembers o = true) :
    unmarshalPayload (.obj o) = .ok o := by
  simp [unmarshalPayload, unmarshalMap, h]

theorem whenPresent_spec {α β : Type} (payload : JMap) (key : String) (conv : JSON → Res β)
    (get : α → β) (set : α → β → α) (hgs : ∀ r, set r (get r) = r) (recv recv' : α)
    (h : whenPresent payload key (fun val r => (conv val).map (set r)) recv = .ok recv') :
    ∃ x, recv' = set recv x ∧
      (match lookup payload key with
       | none => x = get recv
       | some val => conv val = .ok x) := by
  unfold whenPresent at h
  cases hl : lookup payload key with
  | none =>
    simp only [hl, Res.ok.injEq] at h
    exact ⟨get recv, by rw [hgs]; exact h.symm, rfl⟩
  | some val =>
    simp only [hl] at h
    obtain ⟨x, hx, hset⟩ := Res.map_eq_ok h
    exact ⟨x, hset.symm, hx⟩

theorem assertString_eq_ok {val : JSON} {s : String} (h : assertString val = .ok s) :
    val = .str s := by
  cases val <;> simp [assertString] at h
  subst h; rfl

theorem assertBool_eq_ok {val : JSON} {b : Bool} (h : assertBool val = .ok b) :
    val = .bool b := by
  cases val <;> simp [assertBool] at h
  subst h; rfl

theorem assertArray_bind_eq_ok {val : JSON} {f : List JSON → Res (List FieldValidation)}
    {vs : List FieldValidation} (h : (assertArray val).bind f = .ok vs) :
    ∃ xs, val = .arr xs ∧ f xs = .ok vs := by
  cases val <;> simp [assertArray, Res.bind] at h
  exact ⟨_, rfl, h⟩

theorem whenPresent_items_spec (C : Codec) (payload : JMap) (recv recv' : Field)
    (h : whenPresent payload "items"
      (fun val field => (FieldTypeArrayItem.UnmarshalJSON C {} (JSON.Marshal val)).map
        (fun fieldTypeArrayItem => { field with Items := some fieldTypeArrayItem })) recv
      = .ok recv') :
    ∃ x, recv' = { recv with Items := x } ∧
      (match lookup payload "items" with
       | none => x = recv.Items
       | some val => ∃ item,
          FieldTypeArrayItem.UnmarshalJSON C {} (JSON.Marshal val) = .ok item ∧ x = some item) := by
  unfold whenPresent at h
  cases hl : lookup payload "items" with
  | none =>
    simp only [hl, Res.ok.injEq] at h
    exact ⟨recv.Items, h.symm, rfl⟩
  | some val =>
    simp only [hl] at h
    obtain ⟨item, hitem, hset⟩ := Res.map_eq_ok h
    exact ⟨some item, hset.symm, item, hitem, rfl⟩

theorem stringAttr_of (payload : JMap) (key : String) (before after : String)
    (s : match lookup payload key with
      | none => after = before
      | some val => assertString val = .ok after) :
    match lookup payload key with
    | none => after = before
    | some val => val = .str after := by
  cases hl : lookup payload key with
  | none => simpa [hl] using s
  | some val => simp only [hl] at s ⊢; exact assertString_eq_ok s

theorem boolAttr_of (payload : JMap) (key : String) (before after : Bool)
    (s : match lookup payload key with
      | none => after = before
      | some val => assertBool val = .ok after) :
    match lookup payload key with
    | none => after = before
    | some val => val = .bool after := by
  cases hl : lookup payload key with
  | none => simpa [hl] using s
  | some val => simp only [hl] at s ⊢; exact assertBool_eq_ok s

theorem validationsAttr_of (C : Codec) (payload : JMap) (key : String)
    (before after : List FieldValidation)
    (s : match lookup payload key with
      | none => after = before
      | some val => (assertArray val).bind (fun xs => ParseValidations C xs) = .ok after) :
    match lookup payload key with
    | none => after = before
    | some val => ∃ xs, val = .arr xs ∧ ParseValidations C xs = .ok after := by
  cases hl : lookup payload key with
  | none => simpa [hl] using s
  | some val => simp only [hl] at s ⊢; exact assertArray_bind_eq_ok s

theorem Field_UnmarshalJSON_spec (C : Codec) (field f : Field) (o : JMap)
    (h : Field.UnmarshalJSON C field (.obj o) = .ok f) :
    (match lookup o "id" with
      | none => f.ID = field.ID
      | some val => val = .str f.ID) ∧
    (match lookup o "name" with
      | none => f.Name = field.Name
      | some val => val = .str f.Name) ∧
    (match lookup o "type" with
      | none => f.Typ = field.Typ
      | some val => val = .str f.Typ) ∧
    (match lookup o "linkType" with
      | none => f.LinkType = field.LinkType
      | some val => val = .str f.LinkType) ∧
    (match lookup o "items" with
      | none => f.Items = field.Items
      | some val => ∃ item, FieldTypeArrayItem.UnmarshalJSON C {} (JSON.Marshal val) = .ok item
          ∧ f.Items = some item) ∧
    (match lookup o "required" with
      | none => f.Required = field.Required
      | some val => val = .bool f.Required) ∧
    (match lookup o "localized" with
      | none => f.Localized = field.Localized
      | some val => val = .bool f.Localized) ∧
    (match lookup o "disabled" with
      | none => f.Disabled = field.Disabled
      | some val => val = .bool f.Disabled) ∧
    (match lookup o "omitted" with
      | none => f.Omitted = field.Omitted
      | some val => val = .bool f.Omitted) ∧
    (match lookup o "validations" with
      | none => f.Validations = field.Validations
      | some val => ∃ xs, val = .arr xs ∧ ParseValidations C xs = .ok f.Validations) := by
  unfold Field.UnmarshalJSON at h
  obtain ⟨payload, hpayload, h⟩ := Res.bind_eq_ok h
  obtain ⟨hp, _⟩ := unmarshalPayload_obj_ok o payload hpayload
  rw [hp] at h
  obtain ⟨f1, h1, h⟩ := Res.bind_eq_ok h
  obtain ⟨f2, h2, h⟩ := Res.bind_eq_ok h
  obtain ⟨f3, h3, h⟩ := Res.bind_eq_ok h
  obtain ⟨f4, h4, h⟩ := Res.bind_eq_ok h
  obtain ⟨f5, h5, h⟩ := Res.bind_eq_ok h
  obtain ⟨f6, h6, h⟩ := Res.bind_eq_ok h
  obtain ⟨f7, h7, h⟩ := Res.bind_eq_ok h
  obtain ⟨f8, h8, h⟩ := Res.bind_eq_ok h
  obtain ⟨f9, h9, h10⟩ := Res.bind_eq_ok h
  obtain ⟨x1, e1, s1⟩ := whenPresent_spec o "id" assertString Field.ID
    (fun r s => { r with ID := s }) (fun _ => rfl) field f1 h1
  obtain ⟨x2, e2, s2⟩ := whenPresent_spec o "name" assertString Field.Name
    (fun r s => { r with Name := s }) (fun _ => rfl) f1 f2 h2
  obtain ⟨x3, e3, s3⟩ := whenPresent_spec o "type" assertString Field.Typ
    (fun r s => { r with Typ := s }) (fun _ => rfl) f2 f3 h3
  obtain ⟨x4, e4, s4⟩ := whenPresent_spec o "linkType" assertString Field.LinkType
    (fun r s => { r with LinkType := s }) (fun _ => rfl) f3 f4 h4
  obtain ⟨x5, e5, s5⟩ := whenPresent_items_spec C o f4 f5 h5
  obtain ⟨x6, e6, s6⟩ := whenPresent_spec o "required" assertBool Field.Required
    (fun r s => { r with Required := s }) (fun _ => rfl) f5 f6 h6
  obtain ⟨x7, e7, s7⟩ := whenPresent_spec o "localized" assertBool Field.Localized
    (fun r s => { r with Localized := s }) (fun _ => rfl) f6 f7 h7
  obtain ⟨x8, e8, s8⟩ := whenPresent_spec o "disabled" assertBool Field.Disabled
    (fun r s => { r with Disabled := s }) (fun _ => rfl) f7 f8 h8
  obtain ⟨x9, e9, s9⟩ := whenPresent_spec o "omitted" assertBool Field.Omitted
    (fun r s => { r with Omitted := s }) (fun _ => rfl) f8 f9 h9
  obtain ⟨x10, e10, s10⟩ := whenPresent_spec o "validations"
    (fun val => (assertArray val).bind (fun xs => ParseValidations C xs)) Field.Validations
    (fun r s => { r with Validations := s }) (fun _ => rfl) f9 f h10
  subst e1; subst e2; subst e3; subst e4; subst e5; subst e6; subst e7; subst e8; subst e9
  subst e10
  exact ⟨stringAttr_of o "id" field.ID x1 s1, stringAttr_of o "name" field.Name x2 s2,
    stringAttr_of o "type" field.Typ x3 s3, stringAttr_of o "linkType" field.LinkType x4 s4,
    s5, boolAttr_of o "required" field.Required x6 s6,
    boolAttr_of o "localized" field.Localized x7 s7,
    boolAttr_of o "disabled" field.Disabled x8 s8,
    boolAttr_of o "omitted" field.Omitted x9 s9,
    validationsAttr_of C o "validations" field.Validations x10 s10⟩

/-! ## Claims on ParseValidations -/

/-- C1 (amended): for every validation JSON object, when ParseValidations on the one-element
list succeeds, the variants it returns are one per discriminating key present in the object,
in the fixed rule order (every present key contributes, not only the first); so a single
variant is returned exactly when a single discriminating key is present. -/
theorem C1_one_variant_per_present_key (C : Codec) (o : JMap) (vs : List FieldValidation)
    (h : ParseValidations C [.obj o] = .ok vs) :
    vs.map FieldValidation.key = discriminatingKeys.filter (fun k => hasKey o k) ∧
    (vs.length = 1 ↔ (discriminatingKeys.filter (fun k => hasKey o k)).length = 1) := by
  rw [ParseValidations_singleton_obj] at h
  have hkeys := runRules_keys (ParseValidations.rules C) o _
    (fun key decode hm doc v hd => rules_key_of_ok C key decode hm doc v hd) vs h
  rw [rules_keys] at hkeys
  refine ⟨hkeys, ?_⟩
  rw [← hkeys, List.length_map]

/-- C1 (witness): the object with the keys unique and message decodes to the Unique variant. -/
theorem C1_one_variant_per_present_key_witness :
    [FieldValidation.Unique { Unique := true }].map FieldValidation.key
      = discriminatingKeys.filter
          (fun k => hasKey [("unique", .bool true), ("message", .str "taken")] k) ∧
    ([FieldValidation.Unique { Unique := true }].length = 1 ↔
      (discriminatingKeys.filter
          (fun k => hasKey [("unique", .bool true), ("message", .str "taken")] k)).length
        = 1) :=
  C1_one_variant_per_present_key specCodec
    [("unique", .bool true), ("message", .str "taken")] [.Unique { Unique := true }] rfl

/-- C1 (counterexample): an object holding the keys unique and size decodes to two variants,
Unique and then Size; the first matching rule does not end the decoding. -/
theorem C1_counterexample_two_keys_two_variants :
    ParseValidations specCodec
        [.obj [("unique", .bool true), ("size", .obj [("min", .num 1), ("max", .num 10)])]]
      = .ok [.Unique { Unique := true },
             .Size { Size := some { min := some 1, max := some 10 } }] :=
  rfl

/-- C2 (amended): for every validation JSON object that contains none of the ten
discriminating keys, ParseValidations on the one-element list returns successfully with no
variants. -/
theorem C2_no_key_no_variant (C : Codec) (o : JMap)
    (h : ∀ k ∈ discriminatingKeys, hasKey o k = false) :
    ParseValidations C [.obj o] = .ok [] := by
  rw [ParseValidations_singleton_obj]
  exact runRules_absent _ _ _ _ (by rw [rules_keys]; exact h)

/-- C2 (witness): an object holding only a message key decodes to no variant. -/
theorem C2_no_key_no_variant_witness :
    ParseValidations specCodec [.obj [("message", .str "hello")]] = .ok [] :=
  C2_no_key_no_variant specCodec [("message", .str "hello")] (by decide)

/-- C2 (counterexample): the object with the one key foo has none of the ten discriminating
keys, and ParseValidations returns successfully on it instead of failing. -/
theorem C2_counterexample_unknown_key_succeeds :
    (∀ k ∈ discriminatingKeys, hasKey [("foo", .bool true)] k = false) ∧
    ParseValidations specCodec [.obj [("foo", .bool true)]] = .ok [] :=
  ⟨by decide, rfl⟩

/-- C8: ParseValidations is all-or-nothing.  If the elements before some element decode and
that element fails with an error, the call returns that error and no variants; if any element
fails to decode the call does not succeed; it succeeds when every element decodes.  An element
fails when it is a string whose text is not JSON or is not a JSON object, and when it is an
object with a discriminating key whose decoder does not succeed. -/
theorem C8_all_or_nothing (C : Codec) (data : List JSON) :
    (∀ pre x post e, data = pre ++ x :: post →
        (∀ y ∈ pre, ∃ vs, decodeElement C y = .ok vs) → decodeElement C x = .err e →
        ParseValidations C data = .err e) ∧
    (∀ x ∈ data, (∀ vs, decodeElement C x ≠ .ok vs) →
        ∀ vs, ParseValidations C data ≠ .ok vs) ∧
    ((∀ x ∈ data, ∃ vs, decodeElement C x = .ok vs) → ∃ vs, ParseValidations C data = .ok vs) ∧
    (∀ s e, C.parse s = .err e → decodeElement C (.str s) = .err e) ∧
    (∀ s doc e, C.parse s = .ok doc → unmarshalMap doc = .err e →
        decodeElement C (.str s) = .err e) ∧
    (∀ o key decode, (key, decode) ∈ ParseValidations.rules C → hasKey o key = true →
        (∀ v, decode (JSON.Marshal (.obj o)) ≠ .ok v) →
        ∀ vs, decodeElement C (.obj o) ≠ .ok vs) := by
  refine ⟨?_, ?_, ?_, ?_, ?_, ?_⟩
  · intro pre x post e hdata hpre hx
    subst hdata
    obtain ⟨ws, hws⟩ := ParseValidations_ok_of_decodeElement_ok C pre hpre
    rw [ParseValidations_append, hws, ParseValidations_cons, hx]
    rfl
  · intro x hx hfail vs hok
    obtain ⟨ws, hws⟩ := decodeElement_ok_of_ParseValidations_ok C data vs hok x hx
    exact hfail ws hws
  · exact ParseValidations_ok_of_decodeElement_ok C data
  · intro s e hs
    simp [decodeElement, ParseValidations.body, ParseValidations.element, hs, Res.bind]
  · intro s doc e hs hdoc
    simp [decodeElement, ParseValidations.body, ParseValidations.element, hs, hdoc, Res.bind]
  · intro o key decode hmem hk hfail vs hok
    simp only [decodeElement, ParseValidations.body, ParseValidations.element, Res.bind] at hok
    obtain ⟨v, hv⟩ := runRules_ok_decodes _ o _ [] vs hok key decode hmem hk
    exact hfail v hv

/-- C8 (witness): after an element that decodes to Unique, a string that is not JSON makes
the whole call return the reader's error. -/
theorem C8_all_or_nothing_witness :
    ParseValidations specCodec [.obj [("unique", .bool true)], .str "nope"]
      = .err (.invalidJSON "invalid JSON text") :=
  (C8_all_or_nothing specCodec [.obj [("unique", .bool true)], .str "nope"]).1
    [.obj [("unique", .bool true)]] (.str "nope") [] (.invalidJSON "invalid JSON text") rfl
    (fun y hy => by
      rw [List.mem_singleton] at hy
      subst hy
      exact ⟨[.Unique { Unique := true }], rfl⟩)
    rfl

/-- C9: ParseValidations is the concatenation of its per-element results, in input order:
when it succeeds on xs and on ys, it succeeds on xs ++ ys with the variants of xs followed by
those of ys; and on the empty list it returns no variants. -/
theorem C9_append_is_concatenation (C : Codec) (xs ys : List JSON)
    (a b : List FieldValidation)
    (hx : ParseValidations C xs = .ok a) (hy : ParseValidations C ys = .ok b) :
    ParseValidations C (xs ++ ys) = .ok (a ++ b) ∧ ParseValidations C [] = .ok [] := by
  refine ⟨?_, rfl⟩
  rw [ParseValidations_append, hx, hy]
  rfl

/-- C9 (witness): the JSON string for unique followed by the parsed regexp object yields
exactly two variants, Unique then Regexp. -/
theorem C9_append_is_concatenation_witness :
    ParseValidations specCodec
        ([.str "\x7b\"unique\": true\x7d"]
          ++ [.obj [("regexp", .obj [("pattern", .str "^[a-z]+$")])]])
      = .ok ([.Unique { Unique := true }] ++ [.Regex { Pattern := "^[a-z]+$", Flags := "" }]) ∧
    ParseValidations specCodec [] = .ok [] :=
  C9_append_is_concatenation specCodec [.str "\x7b\"unique\": true\x7d"]
    [.obj [("regexp", .obj [("pattern", .str "^[a-z]+$")])]]
    [.Unique { Unique := true }] [.Regex { Pattern := "^[a-z]+$", Flags := "" }] rfl rfl

/-- C10: for every validation object in which exactly one of the ten discriminating keys is
present and for which the decoder of that key succeeds, ParseValidations on the one-element
list returns exactly one variant, the one decoded for that key. -/
theorem C10_single_key_single_variant (C : Codec) (o : JMap) (key : String)
    (decode : JSON → Res FieldValidation) (v : FieldValidation)
    (hmem : (key, decode) ∈ ParseValidations.rules C)
    (hk : hasKey o key = true)
    (hothers : ∀ k ∈ discriminatingKeys, k ≠ key → hasKey o k = false)
    (hd : decode (JSON.Marshal (.obj o)) = .ok v) :
    ParseValidations C [.obj o] = .ok [v] ∧ v.key = key := by
  refine ⟨?_, rules_key_of_ok C key decode hmem _ v hd⟩
  rw [ParseValidations_singleton_obj]
  have hnd : ((ParseValidations.rules C).map Prod.fst).Nodup := by
    rw [rules_keys]; exact discriminatingKeys_nodup
  have := runRules_single (ParseValidations.rules C) o (JSON.Marshal (.obj o)) key decode v
    hnd hmem hk (by rw [rules_keys]; exact hothers) hd []
  simpa using this

/-- C10 (witness): the object with the one key size and bounds 1 and 10 yields a single Size
variant with min 1 and max 10. -/
theorem C10_single_key_single_variant_witness :
    ParseValidations specCodec [.obj [("size", .obj [("min", .num 1), ("max", .num 10)])]]
      = .ok [.Size { Size := some { min := some 1, max := some 10 } }] ∧
    (FieldValidation.Size { Size := some { min := some 1, max := some 10 } }).key = "size" :=
  C10_single_key_single_variant specCodec
    [("size", .obj [("min", .num 1), ("max", .num 10)])] "size"
    (fun b => (specCodec.Size b).map FieldValidation.Size)
    (.Size { Size := some { min := some 1, max := some 10 } })
    (by simp [ParseValidations.rules]) (by decide) (by decide) rfl

/-! ## Lemmas on requests -/

theorem getHeader_setHeader_same (req : Request) (key value : String) :
    (req.setHeader key value).getHeader key = some value := by
  simp [Request.setHeader, Request.getHeader, List.find?]

theorem getHeader_setHeader_other (req : Request) (key key' value : String) (h : key' ≠ key) :
    (req.setHeader key' value).getHeader key = req.getHeader key := by
  simp only [Request.setHeader, Request.getHeader, List.find?, h, decide_False]
  congr 1
  induction req.header with
  | nil => rfl
  | cons kv rest ih =>
    by_cases hk : kv.1 = key
    · have hk' : ¬ kv.1 = key' := fun h' => h (h'.symm.trans hk)
      simp [List.filter, List.find?, hk, hk', Ne.symm h]
    · by_cases hk' : kv.1 = key'
      · simp [List.filter, List.find?, hk, hk', ih, h]
      · simp [List.filter, List.find?, hk, hk', ih]

theorem sendVersioned_sent (c : Client) (req0 : Request) (version : Int) (req : Request)
    (res : Option Err) (h : sendVersioned c req0 version = .sent req res) :
    req.getHeader "X-Contentful-Version" = some (Itoa version) ∧ req.method = req0.method ∧
      req.path = req0.path := by
  simp only [sendVersioned, Outcome.sent.injEq] at h
  obtain ⟨hreq, _⟩ := h
  subst hreq
  exact ⟨getHeader_setHeader_same _ _ _, rfl, rfl⟩

theorem newRequest_ok (c : Client) (method path : String) (body : Option JSON) (req : Request)
    (h : newRequest c method path body = .ok req) :
    req.method = method ∧ req.path = path ∧ req.body = body ∧ req.header = c.header := by
  unfold newRequest at h
  cases hr : c.requestErr method path with
  | some msg => simp [hr] at h
  | none =>
    simp only [hr, Res.ok.injEq] at h
    subst h
    exact ⟨rfl, rfl, rfl, rfl⟩

theorem newRequest_err (c : Client) (method path : String) (body : Option JSON) (e : Err)
    (h : newRequest c method path body = .err e) : ∃ msg, e = .request msg := by
  unfold newRequest at h
  cases hr : c.requestErr method path with
  | some msg => simp only [hr, Res.err.injEq] at h; exact ⟨msg, h.symm⟩
  | none => simp [hr] at h

theorem newRequest_no_panic (c : Client) (method path : String) (body : Option JSON)
    (m : String) : newRequest c method path body ≠ .panic m := by
  unfold newRequest
  cases c.requestErr method path <;> simp

theorem versionedCall_sent (c : Client) (method : String) (path : String → String)
    (sys : Option Sys) (req : Request) (res : Option Err)
    (h : versionedCall c method path sys = .sent req res) :
    ∃ s, sys = some s ∧ req.getHeader "X-Contentful-Version" = some (Itoa s.Version) ∧
      req.method = method ∧ req.path = path s.ID := by
  unfold versionedCall at h
  cases sys with
  | none => simp at h
  | some s =>
    simp only [] at h
    cases hr : newRequest c method (path s.ID) none with
    | ok req0 =>
      simp only [hr] at h
      obtain ⟨hv, hm, hp⟩ := sendVersioned_sent c req0 s.Version req res h
      obtain ⟨hm0, hp0, _, _⟩ := newRequest_ok c method (path s.ID) none req0 hr
      exact ⟨s, rfl, hv, hm.trans hm0, hp.trans hp0⟩
    | err e => simp [hr] at h
    | panic m => simp [hr] at h

theorem encodeFields_err (fields : List (String × GoValue)) (e : Err)
    (h : encodeFields fields = .err e) : e = .marshal "json: unsupported type" := by
  induction fields with
  | nil => simp [encodeFields] at h
  | cons kv rest ih =>
    obtain ⟨k, v⟩ := kv
    cases v with
    | json v =>
      simp only [encodeFields] at h
      cases hr : encodeFields rest with
      | ok kvs => simp [hr, Res.map] at h
      | err e' =>
        simp only [hr, Res.map, Res.err.injEq] at h
        subst h
        exact ih hr
      | panic m => simp [hr, Res.map] at h
    | unsupported =>
      simp only [encodeFields, Res.err.injEq] at h
      exact h.symm

theorem marshalFieldsOnly_err (fields : List (String × GoValue)) (e : Err)
    (h : marshalFieldsOnly fields = .err e) : e = .marshal "json: unsupported type" := by
  unfold marshalFieldsOnly at h
  cases hr : encodeFields fields with
  | ok kvs => simp [hr, Res.map] at h
  | err e' =>
    simp only [hr, Res.map, Res.err.injEq] at h
    subst h
    exact encodeFields_err fields e' hr
  | panic m => simp [hr, Res.map] at h

theorem ContentTypesService_Upsert_sent (c : Client) (spaceID : String) (ct : ContentType)
    (req : Request) (res : Option Err)
    (h : ContentTypesService.Upsert c spaceID ct = .sent req res) :
    req.getHeader "X-Contentful-Version" = some (Itoa ct.GetVersion) ∧
    (match ct.Sys with
     | some sys =>
       if sys.ID ≠ "" then
         req.method = "PUT" ∧
           req.path = "/spaces/" ++ spaceID ++ c.envPath ++ "/content_types/" ++ sys.ID
       else req.method = "POST" ∧
           req.path = "/spaces/" ++ spaceID ++ c.envPath ++ "/content_types"
     | none => req.method = "POST" ∧
           req.path = "/spaces/" ++ spaceID ++ c.envPath ++ "/content_types") := by
  unfold ContentTypesService.Upsert at h
  cases hm : c.marshalContentType ct with
  | err e => simp [hm] at h
  | panic m => simp [hm] at h
  | ok bytesArray =>
    simp only [hm] at h
    split at h
    · simp at h
    · simp at h
    · rename_i req0 hr
      obtain ⟨hv, hmeth, hpath⟩ := sendVersioned_sent c req0 ct.GetVersion req res h
      obtain ⟨hm0, hp0, _, _⟩ := newRequest_ok c _ _ _ req0 hr
      refine ⟨hv, ?_⟩
      rw [hmeth, hpath, hm0, hp0]
      cases ct.Sys with
      | none => exact ⟨rfl, rfl⟩
      | some sys =>
        simp only []
        split <;> exact ⟨by simp [*], by simp [*]⟩

theorem EntriesService_Upsert_sent (c : Client) (spaceID : String) (entry : Entry)
    (req : Request) (res : Option Err)
    (h : EntriesService.Upsert c spaceID entry = .sent req res) :
    ∃ sys link ctSys, entry.Sys = some sys ∧ sys.ContentType = some link ∧
      link.Sys = some ctSys ∧
      req.getHeader "X-Contentful-Version" = some (Itoa entry.GetVersion) ∧
      req.getHeader "X-Contentful-Content-Type" = some ctSys.ID ∧
      (if sys.ID ≠ "" then
         req.method = "PUT" ∧
           req.path = "/spaces/" ++ spaceID ++ c.envPath ++ "/entries/" ++ sys.ID
       else req.method = "POST" ∧
           req.path = "/spaces/" ++ spaceID ++ c.envPath ++ "/entries") := by
  unfold EntriesService.Upsert at h
  cases hm : marshalFieldsOnly entry.Fields with
  | err e => simp [hm] at h
  | panic m => simp [hm] at h
  | ok bytesArray =>
    simp only [hm] at h
    cases hs : entry.Sys with
    | none => simp [hs] at h
    | some sys =>
      simp only [hs] at h
      cases hc : sys.ContentType with
      | none => simp [hc] at h
      | some link =>
        simp only [hc] at h
        split at h
        · simp at h
        · simp at h
        · rename_i req0 hr
          obtain ⟨hm0, hp0, _, _⟩ := newRequest_ok c _ _ _ req0 hr
          cases hl : link.Sys with
          | none => simp [hl] at h
          | some ctSys =>
            simp only [hl, Outcome.sent.injEq] at h
            obtain ⟨hreq, _⟩ := h
            subst hreq
            refine ⟨sys, link, ctSys, rfl, hc, hl, ?_, getHeader_setHeader_same _ _ _, ?_⟩
            · rw [getHeader_setHeader_other _ _ _ _ (by decide)]
              exact getHeader_setHeader_same _ _ _
            · show (if sys.ID ≠ "" then req0.method = "PUT" ∧ req0.path = _
                else req0.method = "POST" ∧ req0.path = _)
              rw [hm0, hp0]
              split <;> exact ⟨by simp [*], by simp [*]⟩

/-! ## Claims on Field.UnmarshalJSON -/

/-- C3 (amended): for every JSON object and every receiver Field, when Field.UnmarshalJSON
succeeds, each attribute whose key is absent from the object keeps the value the receiver had
before the call (its zero value when the receiver is fresh), and each attribute whose key is
present equals the value decoded from that key. -/
theorem C3_absent_keys_keep_receiver (C : Codec) (field f : Field) (o : JMap)
    (h : Field.UnmarshalJSON C field (.obj o) = .ok f) :
    (match lookup o "id" with
      | none => f.ID = field.ID
      | some val => val = .str f.ID) ∧
    (match lookup o "name" with
      | none => f.Name = field.Name
      | some val => val = .str f.Name) ∧
    (match lookup o "type" with
      | none => f.Typ = field.Typ
      | some val => val = .str f.Typ) ∧
    (match lookup o "linkType" with
      | none => f.LinkType = field.LinkType
      | some val => val = .str f.LinkType) ∧
    (match lookup o "items" with
      | none => f.Items = field.Items
      | some val => ∃ item, FieldTypeArrayItem.UnmarshalJSON C {} (JSON.Marshal val) = .ok item
          ∧ f.Items = some item) ∧
    (match lookup o "required" with
      | none => f.Required = field.Required
      | some val => val = .bool f.Required) ∧
    (match lookup o "localized" with
      | none => f.Localized = field.Localized
      | some val => val = .bool f.Localized) ∧
    (match lookup o "disabled" with
      | none => f.Disabled = field.Disabled
      | some val => val = .bool f.Disabled) ∧
    (match lookup o "omitted" with
      | none => f.Omitted = field.Omitted
      | some val => val = .bool f.Omitted) ∧
    (match lookup o "validations" with
      | none => f.Validations = field.Validations
      | some val => ∃ xs, val = .arr xs ∧ ParseValidations C xs = .ok f.Validations) :=
  Field_UnmarshalJSON_spec C field f o h

/-- C3 (witness): decoding an object with the keys id and required into a fresh Field sets
these two attributes and leaves every other attribute at its zero value. -/
theorem C3_absent_keys_keep_receiver_witness :
    Field.UnmarshalJSON specCodec {} (.obj [("id", .str "title"), ("required", .bool true)])
      = .ok { ID := "title", Required := true } ∧
    ({ ID := "title", Required := true } : Field).Name = "" ∧
    ({ ID := "title", Required := true } : Field).Items = none ∧
    ({ ID := "title", Required := true } : Field).Validations = [] :=
  have spec := C3_absent_keys_keep_receiver specCodec {} { ID := "title", Required := true }
    [("id", .str "title"), ("required", .bool true)] rfl
  ⟨rfl, spec.2.1, spec.2.2.2.2.1, spec.2.2.2.2.2.2.2.2.2⟩

/-- C3 (counterexample): on a receiver whose id is already set, decoding the empty object
succeeds and the id, whose key is absent, is not the zero value. -/
theorem C3_counterexample_receiver_kept :
    lookup [] "id" = none ∧
    Field.UnmarshalJSON specCodec { ID := "old" } (.obj []) = .ok { ID := "old" } ∧
    ({ ID := "old" } : Field).ID ≠ "" :=
  ⟨rfl, rfl, by decide⟩

/-- C4 (code at the failing inputs): a recognised key with the wrong shape makes
Field.UnmarshalJSON panic on the type assertion, for every codec and receiver; no error value
is returned. -/
theorem C4_wrong_shape_panics (C : Codec) (field : Field) :
    Field.UnmarshalJSON C field (.obj [("required", .str "yes")])
      = .panic "interface conversion: interface {} is not bool" ∧
    Field.UnmarshalJSON C field (.obj [("id", .num 7)])
      = .panic "interface conversion: interface {} is not string" ∧
    Field.UnmarshalJSON C field (.obj [("validations", .str "unique")])
      = .panic "interface conversion: interface {} is not []interface {}" :=
  ⟨rfl, rfl, rfl⟩

/-! ## Claims on the version-stamped mutations -/

/-- C5 (amended): for each of ContentType Upsert, Delete, Activate, Deactivate and Entry
Upsert, Publish, Unpublish, the request handed to the transport carries X-Contentful-Version
equal to the decimal rendering of the resource's version.  (Entry Delete receives the entry id
only and is not among them.) -/
theorem C5_version_header (c : Client) (spaceID : String) (ct : ContentType) (entry : Entry) :
    (∀ req res, ContentTypesService.Upsert c spaceID ct = .sent req res →
      req.getHeader "X-Contentful-Version" = some (Itoa ct.GetVersion)) ∧
    (∀ req res, ContentTypesService.Delete c spaceID ct = .sent req res →
      req.getHeader "X-Contentful-Version" = some (Itoa ct.GetVersion)) ∧
    (∀ req res, ContentTypesService.Activate c spaceID ct = .sent req res →
      req.getHeader "X-Contentful-Version" = some (Itoa ct.GetVersion)) ∧
    (∀ req res, ContentTypesService.Deactivate c spaceID ct = .sent req res →
      req.getHeader "X-Contentful-Version" = some (Itoa ct.GetVersion)) ∧
    (∀ req res, EntriesService.Upsert c spaceID entry = .sent req res →
      req.getHeader "X-Contentful-Version" = some (Itoa entry.GetVersion)) ∧
    (∀ req res, EntriesService.Publish c spaceID entry = .sent req res →
      req.getHeader "X-Contentful-Version" = some (Itoa entry.GetVersion)) ∧
    (∀ req res, EntriesService.Unpublish c spaceID entry = .sent req res →
      req.getHeader "X-Contentful-Version" = some (Itoa entry.GetVersion)) := by
  have hct : ∀ method path req res, versionedCall c method path ct.Sys = .sent req res →
      req.getHeader "X-Contentful-Version" = some (Itoa ct.GetVersion) := by
    intro method path req res h
    obtain ⟨s, hs, hv, _, _⟩ := versionedCall_sent c method path ct.Sys req res h
    simp only [ContentType.GetVersion, hs]
    exact hv
  have hen : ∀ method path req res, versionedCall c method path entry.Sys = .sent req res →
      req.getHeader "X-Contentful-Version" = some (Itoa entry.GetVersion) := by
    intro method path req res h
    obtain ⟨s, hs, hv, _, _⟩ := versionedCall_sent c method path entry.Sys req res h
    simp only [Entry.GetVersion, hs]
    exact hv
  refine ⟨?_, ?_, ?_, ?_, ?_, ?_, ?_⟩
  · intro req res h
    exact (ContentTypesService_Upsert_sent c spaceID ct req res h).1
  · intro req res h; exact hct _ _ req res h
  · intro req res h; exact hct _ _ req res h
  · intro req res h; exact hct _ _ req res h
  · intro req res h
    obtain ⟨_, _, _, _, _, _, hv, _⟩ := EntriesService_Upsert_sent c spaceID entry req res h
    exact hv
  · intro req res h; exact hen _ _ req res h
  · intro req res h; exact hen _ _ req res h

/-- C5 (witness): deleting a content type of version 5 sends a request whose version header
is the text 5. -/
theorem C5_version_header_witness :
    ContentTypesService.Delete demoClient "sp"
        { Sys := some { ID := "blogPost", Version := 5, ContentType := none, Space := none },
          Name := "Blog", Description := "", Fields := [], DisplayField := "" }
      = .sent { method := "DELETE", path := "/spaces/sp/content_types/blogPost", body := none,
                header := [("X-Contentful-Version", "5"),
                  ("Content-Type", "application/vnd.contentful.management.v1+json")] } none ∧
    Request.getHeader
        { method := "DELETE", path := "/spaces/sp/content_types/blogPost", body := none,
          header := [("X-Contentful-Version", "5"),
            ("Content-Type", "application/vnd.contentful.management.v1+json")] }
        "X-Contentful-Version" = some (Itoa 5) :=
  ⟨rfl, (C5_version_header demoClient "sp"
    { Sys := some { ID := "blogPost", Version := 5, ContentType := none, Space := none },
      Name := "Blog", Description := "", Fields := [], DisplayField := "" }
    { locale := "", Sys := none, Fields := [] }).2.1 _ none rfl⟩

/-- C5 (counterexample): Entry Delete hands a request to the transport that carries no
X-Contentful-Version header. -/
theorem C5_counterexample_entry_delete_unversioned :
    ∃ req res, EntriesService.Delete demoClient "sp" "entry1" = .sent req res ∧
      req.method = "DELETE" ∧ req.path = "/spaces/sp/entries/entry1" ∧
      req.getHeader "X-Contentful-Version" = none :=
  ⟨_, _, rfl, rfl, rfl, rfl⟩

theorem ContentTypesService_Upsert_built (c : Client) (spaceID : String) (ct : ContentType)
    (body : JSON) (hbody : c.marshalContentType ct = .ok body)
    (hreq : ∀ method path, c.requestErr method path = none) :
    ∃ req, ContentTypesService.Upsert c spaceID ct = .sent req (c.transport req) := by
  simp only [ContentTypesService.Upsert, hbody, newRequest, hreq, sendVersioned]
  exact ⟨_, rfl⟩

theorem EntriesService_Upsert_built (c : Client) (spaceID : String) (entry : Entry)
    (sys : Sys) (link : Link) (linkSys : LinkSys) (body : JSON)
    (hsys : entry.Sys = some sys) (hlink : sys.ContentType = some link)
    (hlinkSys : link.Sys = some linkSys) (hbody : marshalFieldsOnly entry.Fields = .ok body)
    (hreq : ∀ method path, c.requestErr method path = none) :
    ∃ req, EntriesService.Upsert c spaceID entry = .sent req (c.transport req) := by
  simp only [EntriesService.Upsert, hbody, hsys, hlink, hlinkSys, newRequest, hreq]
  exact ⟨_, rfl⟩

/-- C6 (amended): Upsert method and path selection.  For every content type that marshals,
when the request can be constructed a request is built, and every request built has method
POST and the collection path /spaces/{space}{env}/content_types when the identity is empty
(system metadata absent, or its id the empty string), and method PUT and the collection path
followed by /{id} when the id is not empty.  For every entry whose system metadata carries a
content-type reference with an id and whose fields marshal, when the request can be
constructed a request is built, and every request built for an entry has method POST and the
path /spaces/{space}{env}/entries when its id is empty, and method PUT and that path followed
by /{id} when its id is not empty. -/
theorem C6_upsert_selection (c : Client) (spaceID : String) (ct : ContentType)
    (entry : Entry) :
    (∀ req res, ContentTypesService.Upsert c spaceID ct = .sent req res →
      ((ct.Sys = none ∨ ∃ sys, ct.Sys = some sys ∧ sys.ID = "") →
        req.method = "POST" ∧
          req.path = "/spaces/" ++ spaceID ++ c.envPath ++ "/content_types") ∧
      (∀ sys, ct.Sys = some sys → sys.ID ≠ "" →
        req.method = "PUT" ∧
          req.path = "/spaces/" ++ spaceID ++ c.envPath ++ "/content_types/" ++ sys.ID)) ∧
    (∀ body, c.marshalContentType ct = .ok body →
      (∀ method path, c.requestErr method path = none) →
      ∃ req, ContentTypesService.Upsert c spaceID ct = .sent req (c.transport req)) ∧
    (∀ req res, EntriesService.Upsert c spaceID entry = .sent req res →
      ∃ sys, entry.Sys = some sys ∧
        (sys.ID = "" →
          req.method = "POST" ∧ req.path = "/spaces/" ++ spaceID ++ c.envPath ++ "/entries") ∧
        (sys.ID ≠ "" →
          req.method = "PUT" ∧
            req.path = "/spaces/" ++ spaceID ++ c.envPath ++ "/entries/" ++ sys.ID)) ∧
    (∀ sys link linkSys body, entry.Sys = some sys → sys.ContentType = some link →
      link.Sys = some linkSys → marshalFieldsOnly entry.Fields = .ok body →
      (∀ method path, c.requestErr method path = none) →
      ∃ req, EntriesService.Upsert c spaceID entry = .sent req (c.transport req)) := by
  refine ⟨?_, ?_, ?_, ?_⟩
  · intro req res h
    have hsel := (ContentTypesService_Upsert_sent c spaceID ct req res h).2
    constructor
    · rintro (hnone | ⟨sys, hsys, hid⟩)
      · rw [hnone] at hsel
        exact hsel
      · rw [hsys] at hsel
        simp only [hid, ne_eq, not_true_eq_false, if_false] at hsel
        exact hsel
    · intro sys hsys hid
      rw [hsys] at hsel
      simp only [hid, ne_eq, not_false_eq_true, if_true] at hsel
      exact hsel
  · intro body hbody hreq
    exact ContentTypesService_Upsert_built c spaceID ct body hbody hreq
  · intro req res h
    obtain ⟨sys, _, _, hsys, _, _, _, _, hsel⟩ :=
      EntriesService_Upsert_sent c spaceID entry req res h
    refine ⟨sys, hsys, ?_, ?_⟩
    · intro hid
      simp only [hid, ne_eq, not_true_eq_false, if_false] at hsel
      exact hsel
    · intro hid
      simp only [hid, ne_eq, not_false_eq_true, if_true] at hsel
      exact hsel
  · intro sys link linkSys body hsys hlink hlinkSys hbody hreq
    exact EntriesService_Upsert_built c spaceID entry sys link linkSys body hsys hlink
      hlinkSys hbody hreq

/-- C6 (witness): a content type without system metadata is sent with POST to the collection
path, and the entry post1 of content type blogPost is sent with PUT to the path ending in its
id. -/
theorem C6_upsert_selection_witness :
    (∃ req, ContentTypesService.Upsert demoClient "sp"
          { Sys := none, Name := "Blog", Description := "", Fields := [], DisplayField := "" }
        = .sent req (demoClient.transport req) ∧
      req.method = "POST" ∧
      req.path = "/spaces/" ++ "sp" ++ demoClient.envPath ++ "/content_types") ∧
    (∃ req, EntriesService.Upsert demoClient "sp" demoEntry
        = .sent req (demoClient.transport req) ∧
      req.method = "PUT" ∧
      req.path = "/spaces/" ++ "sp" ++ demoClient.envPath ++ "/entries/" ++ "post1") := by
  have hsel := C6_upsert_selection demoClient "sp"
    { Sys := none, Name := "Blog", Description := "", Fields := [], DisplayField := "" }
    demoEntry
  obtain ⟨hct, hctBuilt, hen, henBuilt⟩ := hsel
  constructor
  · obtain ⟨req, hreq⟩ := hctBuilt _ rfl (fun _ _ => rfl)
    exact ⟨req, hreq, (hct req _ hreq).1 (Or.inl rfl)⟩
  · obtain ⟨req, hreq⟩ := henBuilt _ _ _ _ rfl rfl rfl rfl (fun _ _ => rfl)
    obtain ⟨sys, hsys, _, hput⟩ := hen req _ hreq
    have hs := Option.some.inj hsys
    subst hs
    exact ⟨req, hreq, hput (by decide)⟩

/-- C6 (counterexample): an entry whose system metadata has an empty id and no content-type
reference has an empty identity, yet Upsert builds no POST request for it: it returns the
content-type error. -/
theorem C6_counterexample_entry_without_content_type :
    EntriesService.Upsert demoClient "sp"
        { locale := "en-US",
          Sys := some { ID := "", Version := 0, ContentType := none, Space := none },
          Fields := [("title", .json (.str "Hello"))] }
      = .failed missingContentType :=
  rfl

/-- C7 (amended): for every entry that has system metadata and whose content-type reference
is absent, Entry Upsert hands no request to the transport; it returns the error
"creating/updating an entry requires a content type" when the fields marshal, and the
marshalling error otherwise.  For every entry whose content-type reference is present, this
precondition error is not returned. -/
theorem C7_missing_content_type (c : Client) (spaceID : String) (entry : Entry) (sys : Sys)
    (hsys : entry.Sys = some sys) :
    (sys.ContentType = none →
      (∀ body, marshalFieldsOnly entry.Fields = .ok body →
        EntriesService.Upsert c spaceID entry = .failed missingContentType) ∧
      (∀ e, marshalFieldsOnly entry.Fields = .err e →
        EntriesService.Upsert c spaceID entry = .failed e) ∧
      (∀ req res, EntriesService.Upsert c spaceID entry ≠ .sent req res)) ∧
    (∀ link, sys.ContentType = some link →
      EntriesService.Upsert c spaceID entry ≠ .failed missingContentType) := by
  constructor
  · intro hct
    refine ⟨?_, ?_, ?_⟩
    · intro body hb
      simp [EntriesService.Upsert, hb, hsys, hct]
    · intro e he
      simp [EntriesService.Upsert, he]
    · intro req res h
      obtain ⟨sys', link, _, hs', hl, _⟩ := EntriesService_Upsert_sent c spaceID entry req res h
      rw [hsys] at hs'
      cases hs'
      rw [hct] at hl
      cases hl
  · intro link hl h
    unfold EntriesService.Upsert at h
    cases hm : marshalFieldsOnly entry.Fields with
    | err e =>
      simp only [hm, Outcome.failed.injEq] at h
      have := marshalFieldsOnly_err entry.Fields e hm
      rw [h] at this
      simp [missingContentType] at this
    | panic m => simp [hm] at h
    | ok bytesArray =>
      simp only [hm, hsys, hl] at h
      split at h
      · rename_i e hr
        obtain ⟨msg, hmsg⟩ := newRequest_err c _ _ _ e hr
        simp only [Outcome.failed.injEq] at h
        rw [h] at hmsg
        simp [missingContentType] at hmsg
      · simp at h
      · split at h <;> simp at h

/-- C7 (witness): an entry with system metadata, no content-type reference and no fields gets
the precondition error, and nothing is sent. -/
theorem C7_missing_content_type_witness :
    EntriesService.Upsert demoClient "sp"
        { locale := "",
          Sys := some { ID := "", Version := 1, ContentType := none, Space := none },
          Fields := [] }
      = .failed missingContentType :=
  ((C7_missing_content_type demoClient "sp"
      { locale := "",
        Sys := some { ID := "", Version := 1, ContentType := none, Space := none },
        Fields := [] }
      { ID := "", Version := 1, ContentType := none, Space := none } rfl).1 rfl).1
    (.obj [("fields", .obj [])]) rfl

/-- C7 (counterexample): an entry without content-type reference whose fields hold a value
that cannot be marshalled gets the marshalling error, not the content-type error. -/
theorem C7_counterexample_marshal_error_first :
    EntriesService.Upsert demoClient "sp"
        { locale := "",
          Sys := some { ID := "", Version := 1, ContentType := none, Space := none },
          Fields := [("title", .unsupported)] }
      = .failed (.marshal "json: unsupported type") ∧
    Err.marshal "json: unsupported type" ≠ missingContentType :=
  ⟨rfl, by decide⟩


/-! ## Lemmas on marshalling -/

theorem hasKey_cons (k : String) (v : JSON) (m : JMap) (key : String) :
    hasKey ((k, v) :: m) key = (decide (k = key) || hasKey m key) := by
  simp [hasKey]

theorem hasKey_insertMember (k : String) (v : JSON) (m : JMap) (key : String) :
    hasKey (insertMember k v m) key = (decide (k = key) || hasKey m key) := by
  induction m with
  | nil => simp [insertMember, hasKey]
  | cons kv rest ih =>
    obtain ⟨k', v'⟩ := kv
    unfold insertMember
    split
    · simp [hasKey_cons]
    · split
      · rename_i _ heq
        subst heq
        simp [hasKey_cons]
      · rw [hasKey_cons, ih, hasKey_cons]
        cases decide (k = key) <;> cases decide (k' = key) <;> simp

theorem hasKey_marshalMembers (m : JMap) (key : String) :
    hasKey (marshalMembers m) key = hasKey m key := by
  induction m with
  | nil => simp [marshalMembers]
  | cons kv rest ih =>
    obtain ⟨k, v⟩ := kv
    simp only [marshalMembers]
    rw [hasKey_insertMember, ih, hasKey_cons]

theorem lookup_cons (k : String) (v : JSON) (m : JMap) (key : String) :
    lookup ((k, v) :: m) key
      = (match lookup m key with
         | some w => some w
         | none => if k = key then some v else none) := by
  simp [lookup]

theorem lookup_insertMember (k : String) (v : JSON) (m : JMap) (key : String) :
    lookup (insertMember k v m) key
      = (match lookup m key with
         | some w => some w
         | none => if k = key then some v else none) := by
  induction m with
  | nil => simp [insertMember, lookup]
  | cons kv rest ih =>
    obtain ⟨k', v'⟩ := kv
    unfold insertMember
    split
    · rw [lookup_cons]
    · split
      · rename_i _ heq
        subst heq
        rw [lookup_cons]
        cases lookup rest key with
        | some w => rfl
        | none =>
          by_cases hk : k = key
          · simp [hk]
          · simp [hk]
      · rename_i _ hne
        rw [lookup_cons, ih, lookup_cons]
        cases lookup rest key with
        | some w => rfl
        | none =>
          by_cases hk : k = key
          · have hk' : ¬ k' = key := fun h => hne (hk.trans h.symm)
            simp [hk, hk']
          · by_cases hk' : k' = key
            · simp [hk, hk']
            · simp [hk, hk']

theorem lookup_marshalMembers (m : JMap) (key : String) :
    lookup (marshalMembers m) key = (lookup m key).map JSON.Marshal := by
  induction m with
  | nil => simp [marshalMembers, lookup]
  | cons kv rest ih =>
    obtain ⟨k, v⟩ := kv
    simp only [marshalMembers]
    rw [lookup_insertMember, ih, lookup_cons]
    cases lookup rest key with
    | some w => rfl
    | none =>
      by_cases hk : k = key
      · simp [hk]
      · simp [hk]

theorem ltChars_total (s t : List Char) (h1 : ltChars s t = false) (h2 : s ≠ t) :
    ltChars t s = true := by
  induction s generalizing t with
  | nil =>
    cases t with
    | nil => exact absurd rfl h2
    | cons b bs => simp [ltChars] at h1
  | cons a as ih =>
    cases t with
    | nil => simp [ltChars]
    | cons b bs =>
      simp only [ltChars, Bool.or_eq_false_iff, decide_eq_false_iff_not, Bool.and_eq_false_imp,
        decide_eq_true_eq, not_lt] at h1
      obtain ⟨hle, himp⟩ := h1
      simp only [ltChars, Bool.or_eq_true, decide_eq_true_eq, Bool.and_eq_true]
      by_cases hab : a.toNat = b.toNat
      · right
        refine ⟨hab.symm, ih bs (himp hab) ?_⟩
        intro hEq
        apply h2
        have : a = b := Char.ext (UInt32.ext (by simpa [Char.toNat] using hab))
        rw [this, hEq]
      · left
        omega

theorem keyLt_total (k k' : String) (h1 : keyLt k k' = false) (h2 : k ≠ k') :
    keyLt k' k = true := by
  apply ltChars_total _ _ h1
  intro h
  exact h2 (String.ext h)

theorem ltChars_irrefl (s : List Char) : ltChars s s = false := by
  induction s with
  | nil => rfl
  | cons a as ih => simp [ltChars, ih]

theorem mem_insertMember (k : String) (v : JSON) (m : JMap) (kv : String × JSON)
    (h : kv ∈ insertMember k v m) : kv = (k, v) ∨ kv ∈ m := by
  induction m with
  | nil => simp [insertMember] at h; exact Or.inl h
  | cons kv' rest ih =>
    obtain ⟨k', v'⟩ := kv'
    unfold insertMember at h
    split at h
    · rcases List.mem_cons.mp h with h | h
      · exact Or.inl h
      · exact Or.inr h
    · split at h
      · exact Or.inr h
      · rcases List.mem_cons.mp h with h | h
        · exact Or.inr (by rw [h]; exact List.mem_cons_self _ _)
        · rcases ih h with h | h
          · exact Or.inl h
          · exact Or.inr (List.mem_cons_of_mem _ h)

theorem head_insertMember (k : String) (v : JSON) (m : JMap) (y : String × JSON)
    (h : (insertMember k v m).head? = some y) : y.1 = k ∨ m.head? = some y := by
  cases m with
  | nil =>
    simp [insertMember] at h
    exact Or.inl (by rw [← h])
  | cons kv' rest =>
    obtain ⟨k', v'⟩ := kv'
    unfold insertMember at h
    split at h
    · simp at h; exact Or.inl (by rw [← h])
    · split at h
      · exact Or.inr h
      · exact Or.inr h

theorem insertMember_chain (k : String) (v : JSON) (m : JMap)
    (h : List.Chain' (fun a b : String × JSON => keyLt a.1 b.1 = true) m) :
    List.Chain' (fun a b : String × JSON => keyLt a.1 b.1 = true) (insertMember k v m) := by
  induction m with
  | nil => simp [insertMember]
  | cons kv' rest ih =>
    obtain ⟨k', v'⟩ := kv'
    unfold insertMember
    split
    · rename_i hlt
      exact List.Chain'.cons hlt h
    · split
      · exact h
      · rename_i hnlt hne
        rw [List.chain'_cons'] at h ⊢
        refine ⟨?_, ih h.2⟩
        intro y hy
        rcases head_insertMember k v rest y hy with hk | hhead
        · show keyLt k' y.1 = true
          rw [hk]
          exact keyLt_total k k' (by simpa using hnlt) hne
        · exact h.1 y hhead

theorem marshalMembers_chain (m : JMap) :
    List.Chain' (fun a b : String × JSON => keyLt a.1 b.1 = true) (marshalMembers m) := by
  induction m with
  | nil => simp [marshalMembers]
  | cons kv rest ih =>
    obtain ⟨k, v⟩ := kv
    simp only [marshalMembers]
    exact insertMember_chain k _ _ ih

theorem marshalMembers_fixed (m : JMap)
    (hchain : List.Chain' (fun a b : String × JSON => keyLt a.1 b.1 = true) m)
    (hval : ∀ kv ∈ m, JSON.Marshal kv.2 = kv.2) : marshalMembers m = m := by
  induction m with
  | nil => rfl
  | cons kv rest ih =>
    obtain ⟨k, v⟩ := kv
    rw [List.chain'_cons'] at hchain
    simp only [marshalMembers]
    rw [ih hchain.2 (fun kv hkv => hval kv (List.mem_cons_of_mem _ hkv)),
      hval (k, v) (List.mem_cons_self _ _)]
    cases rest with
    | nil => rfl
    | cons kv' rest' =>
      obtain ⟨k', v'⟩ := kv'
      have hlt : keyLt k k' = true := hchain.1 (k', v') rfl
      simp [insertMember, hlt]

theorem marshalMembers_values (m : JMap) (kv : String × JSON) (h : kv ∈ marshalMembers m) :
    ∃ kv' ∈ m, kv.2 = JSON.Marshal kv'.2 := by
  induction m with
  | nil => simp [marshalMembers] at h
  | cons kv0 rest ih =>
    obtain ⟨k, v⟩ := kv0
    simp only [marshalMembers] at h
    rcases mem_insertMember k _ _ kv h with h | h
    · exact ⟨(k, v), List.mem_cons_self _ _, by rw [h]⟩
    · obtain ⟨kv', hmem, heq⟩ := ih h
      exact ⟨kv', List.mem_cons_of_mem _ hmem, heq⟩

mutual
theorem Marshal_idem : (j : JSON) → JSON.Marshal (JSON.Marshal j) = JSON.Marshal j
  | .null => rfl
  | .bool _ => rfl
  | .num _ => rfl
  | .str _ => rfl
  | .arr xs => by
    simp only [JSON.Marshal]
    rw [marshalList_idem xs]
  | .obj kvs => by
    simp only [JSON.Marshal]
    rw [marshalMembers_fixed (marshalMembers kvs) (marshalMembers_chain kvs)]
    intro kv hkv
    obtain ⟨kv', hmem, heq⟩ := marshalMembers_values kvs kv hkv
    rw [heq]
    exact members_idem kvs kv' hmem
theorem marshalList_idem : (xs : List JSON) → marshalList (marshalList xs) = marshalList xs
  | [] => rfl
  | x :: xs => by
    simp only [marshalList]
    rw [Marshal_idem x, marshalList_idem xs]
theorem members_idem : (m : JMap) → ∀ kv ∈ m,
    JSON.Marshal (JSON.Marshal kv.2) = JSON.Marshal kv.2
  | [] => by intro kv h; simp at h
  | (k, v) :: rest => by
    intro kv h
    rcases List.mem_cons.mp h with h | h
    · rw [h]; exact Marshal_idem v
    · exact members_idem rest kv h
end

/-! ## Further lemmas on ParseValidations -/

theorem runRules_congr (rs : List (String × (JSON → Res FieldValidation))) (m m' : JMap)
    (doc doc' : JSON) (hkeys : ∀ k, hasKey m k = hasKey m' k)
    (hdec : ∀ key decode, (key, decode) ∈ rs → hasKey m key = true →
      decode doc = decode doc')
    (acc : List FieldValidation) :
    ParseValidations.runRules rs m (some doc) acc
      = ParseValidations.runRules rs m' (some doc') acc := by
  induction rs generalizing acc with
  | nil => rfl
  | cons r rest ih =>
    obtain ⟨k1, d1⟩ := r
    simp only [ParseValidations.runRules]
    have hrule : ParseValidations.rule k1 d1 m (some doc) acc
        = ParseValidations.rule k1 d1 m' (some doc') acc := by
      unfold ParseValidations.rule
      rw [← hkeys k1]
      by_cases hk : hasKey m k1 = true
      · simp only [hk, if_true]
        rw [hdec k1 d1 (List.mem_cons_self _ _) hk]
      · have hk' : hasKey m k1 = false := by simpa using hk
        simp [hk']
    rw [hrule]
    cases ParseValidations.rule k1 d1 m' (some doc') acc with
    | ok vs =>
      simp only [Res.bind]
      exact ih (fun key decode hm hk => hdec key decode (List.mem_cons_of_mem _ hm) hk) vs
    | err e => rfl
    | panic msg => rfl

theorem decodeElement_Marshal (C : Codec) (x : JSON) :
    decodeElement C (JSON.Marshal x) = decodeElement C x := by
  cases x with
  | null => rfl
  | bool b => rfl
  | num n => rfl
  | str s => rfl
  | arr xs => rfl
  | obj m =>
    simp only [decodeElement, ParseValidations.body, JSON.Marshal, ParseValidations.element,
      Res.bind]
    have hfix : marshalMembers (marshalMembers m) = marshalMembers m := by
      have := Marshal_idem (.obj m)
      simpa [JSON.Marshal] using this
    rw [hfix]
    exact runRules_congr _ _ _ _ _ (fun k => hasKey_marshalMembers m k) (fun _ _ _ _ => rfl) []

theorem ParseValidations_marshalList (C : Codec) (xs : List JSON) :
    ParseValidations C (marshalList xs) = ParseValidations C xs := by
  induction xs with
  | nil => rfl
  | cons x rest ih =>
    simp only [marshalList]
    rw [ParseValidations_cons, ParseValidations_cons, decodeElement_Marshal, ih]

theorem runRules_ok_of_decodes (rs : List (String × (JSON → Res FieldValidation))) (m : JMap)
    (doc : JSON)
    (h : ∀ key decode, (key, decode) ∈ rs → hasKey m key = true → ∃ v, decode doc = .ok v)
    (acc : List FieldValidation) :
    ∃ vs, ParseValidations.runRules rs m (some doc) acc = .ok vs := by
  induction rs generalizing acc with
  | nil => exact ⟨acc, rfl⟩
  | cons r rest ih =>
    obtain ⟨k1, d1⟩ := r
    simp only [ParseValidations.runRules]
    have ih' := ih (fun key decode hm hk => h key decode (List.mem_cons_of_mem _ hm) hk)
    by_cases hk : hasKey m k1 = true
    · obtain ⟨v, hv⟩ := h k1 d1 (List.mem_cons_self _ _) hk
      have hrule : ParseValidations.rule k1 d1 m (some doc) acc = .ok (acc ++ [v]) := by
        simp [ParseValidations.rule, hk, hv]
      rw [hrule]
      exact ih' (acc ++ [v])
    · have hk' : hasKey m k1 = false := by simpa using hk
      rw [rule_absent k1 d1 m (some doc) acc hk']
      exact ih' acc

theorem runRules_mem (rs : List (String × (JSON → Res FieldValidation))) (m : JMap)
    (doc : JSON) (vs : List FieldValidation)
    (h : ParseValidations.runRules rs m (some doc) [] = .ok vs) :
    ∀ v ∈ vs, ∃ key decode, (key, decode) ∈ rs ∧ hasKey m key = true ∧ decode doc = .ok v := by
  induction rs generalizing vs with
  | nil =>
    simp only [ParseValidations.runRules, Res.ok.injEq] at h
    subst h
    intro v hv
    simp at hv
  | cons r rest ih =>
    obtain ⟨k1, d1⟩ := r
    simp only [ParseValidations.runRules] at h
    obtain ⟨a, ha, hrest⟩ := Res.bind_eq_ok h
    rw [runRules_acc] at hrest
    obtain ⟨ws, hws, hvs⟩ := Res.map_eq_ok hrest
    subst hvs
    intro v hv
    rcases List.mem_append.mp hv with hva | hvw
    · unfold ParseValidations.rule at ha
      by_cases hk : hasKey m k1 = true
      · simp only [hk, if_true] at ha
        cases hd : d1 doc with
        | ok w =>
          simp only [hd, Res.ok.injEq, List.nil_append] at ha
          subst ha
          rw [List.mem_singleton] at hva
          subst hva
          exact ⟨k1, d1, List.mem_cons_self _ _, hk, hd⟩
        | err e => simp [hd] at ha
        | panic msg => simp [hd] at ha
      · have hk' : hasKey m k1 = false := by simpa using hk
        simp only [hk', Bool.false_eq_true, if_false, Res.ok.injEq] at ha
        subst ha
        simp at hva
    · obtain ⟨key, decode, hm, hk, hd⟩ := ih ws hws v hvw
      exact ⟨key, decode, List.mem_cons_of_mem _ hm, hk, hd⟩

theorem ParseValidations_singleton_str (C : Codec) (s : String) (doc : JSON) (m : JMap)
    (hparse : C.parse s = .ok doc) (hmap : unmarshalMap doc = .ok m) :
    ParseValidations C [.str s]
      = ParseValidations.runRules (ParseValidations.rules C) m (some doc) [] := by
  unfold ParseValidations
  simp only [ParseValidations.loop, ParseValidations.body, ParseValidations.element, hparse,
    hmap, Res.bind]
  cases ParseValidations.runRules (ParseValidations.rules C) m (some doc) [] <;> rfl

theorem FieldTypeArrayItem_UnmarshalJSON_spec (C : Codec) (item i : FieldTypeArrayItem)
    (p : JMap) (h : FieldTypeArrayItem.UnmarshalJSON C item (.obj p) = .ok i) :
    (match lookup p "type" with
      | none => i.Typ = item.Typ
      | some val => val = .str i.Typ) ∧
    (match lookup p "validations" with
      | none => i.Validations = item.Validations
      | some val => ∃ xs, val = .arr xs ∧ ParseValidations C xs = .ok i.Validations) ∧
    (match lookup p "linktype" with
      | none => i.LinkType = item.LinkType
      | some val => val = .str i.LinkType) := by
  unfold FieldTypeArrayItem.UnmarshalJSON at h
  obtain ⟨payload, hpayload, h⟩ := Res.bind_eq_ok h
  obtain ⟨hp, _⟩ := unmarshalPayload_obj_ok p payload hpayload
  rw [hp] at h
  obtain ⟨i1, h1, h⟩ := Res.bind_eq_ok h
  obtain ⟨i2, h2, h3⟩ := Res.bind_eq_ok h
  obtain ⟨x1, e1, s1⟩ := whenPresent_spec p "type" assertString FieldTypeArrayItem.Typ
    (fun r s => { r with Typ := s }) (fun _ => rfl) item i1 h1
  obtain ⟨x2, e2, s2⟩ := whenPresent_spec p "validations"
    (fun val => (assertArray val).bind (fun xs => ParseValidations C xs))
    FieldTypeArrayItem.Validations (fun r s => { r with Validations := s }) (fun _ => rfl)
    i1 i2 h2
  obtain ⟨x3, e3, s3⟩ := whenPresent_spec p "linktype" assertString
    FieldTypeArrayItem.LinkType (fun r s => { r with LinkType := s }) (fun _ => rfl) i2 i h3
  subst e1; subst e2; subst e3
  exact ⟨stringAttr_of p "type" item.Typ x1 s1,
    validationsAttr_of C p "validations" item.Validations x2 s2,
    stringAttr_of p "linktype" item.LinkType x3 s3⟩

theorem Marshal_eq_arr (v : JSON) (ys : List JSON) (h : JSON.Marshal v = .arr ys) :
    ∃ xs, v = .arr xs ∧ ys = marshalList xs := by
  cases v with
  | arr xs =>
    simp only [JSON.Marshal, JSON.arr.injEq] at h
    exact ⟨xs, rfl, h.symm⟩
  | null => simp [JSON.Marshal] at h
  | bool b => simp [JSON.Marshal] at h
  | num n => simp [JSON.Marshal] at h
  | str s => simp [JSON.Marshal] at h
  | obj m => simp [JSON.Marshal] at h

theorem decodableMembers_insertMember (k : String) (v : JSON) (m : JMap)
    (hv : v.decodable = true) (hm : decodableMembers m = true) :
    decodableMembers (insertMember k v m) = true := by
  induction m with
  | nil => simp [insertMember, decodableMembers, hv]
  | cons kv rest ih =>
    obtain ⟨k', v'⟩ := kv
    simp only [decodableMembers, Bool.and_eq_true] at hm
    unfold insertMember
    split
    · simp [decodableMembers, hv, hm.1, hm.2]
    · split
      · simp [decodableMembers, hm.1, hm.2]
      · simp [decodableMembers, hm.1, ih hm.2]

mutual
theorem decodable_Marshal : (j : JSON) → j.decodable = true → (JSON.Marshal j).decodable = true
  | .null, _ => rfl
  | .bool _, _ => rfl
  | .num _, h => h
  | .str _, _ => rfl
  | .arr xs, h => by
    simp only [JSON.Marshal, JSON.decodable] at h ⊢
    exact decodableList_marshalList xs h
  | .obj kvs, h => by
    simp only [JSON.Marshal, JSON.decodable] at h ⊢
    exact decodableMembers_marshalMembers kvs h
theorem decodableList_marshalList : (xs : List JSON) → decodableList xs = true →
    decodableList (marshalList xs) = true
  | [], _ => rfl
  | x :: xs, h => by
    simp only [decodableList, Bool.and_eq_true] at h
    simp only [marshalList, decodableList, Bool.and_eq_true]
    exact ⟨decodable_Marshal x h.1, decodableList_marshalList xs h.2⟩
theorem decodableMembers_marshalMembers : (m : JMap) → decodableMembers m = true →
    decodableMembers (marshalMembers m) = true
  | [], _ => rfl
  | (k, v) :: rest, h => by
    simp only [decodableMembers, Bool.and_eq_true] at h
    simp only [marshalMembers]
    exact decodableMembers_insertMember k _ _ (decodable_Marshal v h.1)
      (decodableMembers_marshalMembers rest h.2)
end

theorem Field_UnmarshalJSON_validations_only (C : Codec) (vs : List JSON) :
    Field.UnmarshalJSON C {} (.obj [("validations", .arr vs)])
      = (if decodableList vs then
          (ParseValidations C vs).map (fun validations => { Validations := validations })
         else .err (.typeMismatch "number")) := by
  by_cases hd : decodableList vs = true
  · have hp : unmarshalPayload (.obj [("validations", .arr vs)])
        = .ok [("validations", .arr vs)] :=
      unmarshalPayload_obj _ (by simp [decodableMembers, JSON.decodable, hd])
    rw [if_pos hd]
    unfold Field.UnmarshalJSON
    rw [hp]
    rfl
  · have hp : unmarshalPayload (.obj [("validations", .arr vs)])
        = .err (.typeMismatch "number") := by
      simp [unmarshalPayload, unmarshalMap, decodableMembers, JSON.decodable, hd]
    rw [if_neg hd]
    unfold Field.UnmarshalJSON
    rw [hp]
    rfl

theorem Field_UnmarshalJSON_items_only (C : Codec) (vs : List JSON) :
    Field.UnmarshalJSON C {} (.obj [("items", .obj [("validations", .arr vs)])])
      = (if decodableList vs then
          (ParseValidations C vs).map
            (fun validations => { Items := some { Validations := validations } })
         else .err (.typeMismatch "number")) := by
  by_cases hd : decodableList vs = true
  · have hp : unmarshalPayload (.obj [("items", .obj [("validations", .arr vs)])])
        = .ok [("items", .obj [("validations", .arr vs)])] :=
      unmarshalPayload_obj _ (by simp [decodableMembers, JSON.decodable, hd])
    have hq : unmarshalPayload (.obj [("validations", .arr (marshalList vs))])
        = .ok [("validations", .arr (marshalList vs))] :=
      unmarshalPayload_obj _
        (by simp [decodableMembers, JSON.decodable, decodableList_marshalList vs hd])
    have hstep : Field.UnmarshalJSON C {} (.obj [("items", .obj [("validations", .arr vs)])])
        = (((ParseValidations C (marshalList vs)).map
              (fun validations => ({ Validations := validations } : FieldTypeArrayItem))).map
              (fun item => ({ Items := some item } : Field))).bind
            (fun field => Field.UnmarshalJSON C field (.obj [])) := by
      have hempty : ∀ field : Field, Field.UnmarshalJSON C field (.obj []) = .ok field :=
        fun _ => rfl
      cases h : ParseValidations C (marshalList vs) <;>
        simp [Field.UnmarshalJSON, FieldTypeArrayItem.UnmarshalJSON, whenPresent, hp, hq,
          Res.bind, Res.map, lookup, JSON.Marshal, marshalMembers, insertMember, assertArray,
          h, unmarshalPayload_obj [] rfl]
    rw [if_pos hd, hstep, ParseValidations_marshalList]
    cases ParseValidations C vs <;> rfl
  · have hp : unmarshalPayload (.obj [("items", .obj [("validations", .arr vs)])])
        = .err (.typeMismatch "number") := by
      simp [unmarshalPayload, unmarshalMap, decodableMembers, JSON.decodable, hd]
    rw [if_neg hd]
    unfold Field.UnmarshalJSON
    rw [hp]
    rfl

theorem hasKey_perm (m m' : JMap) (h : m.Perm m') (key : String) :
    hasKey m key = hasKey m' key := by
  have hiff : hasKey m key = true ↔ hasKey m' key = true := by
    simp only [hasKey, List.any_eq_true]
    constructor
    · rintro ⟨kv, hmem, hk⟩; exact ⟨kv, h.mem_iff.mp hmem, hk⟩
    · rintro ⟨kv, hmem, hk⟩; exact ⟨kv, h.mem_iff.mpr hmem, hk⟩
  cases h1 : hasKey m key <;> cases h2 : hasKey m' key <;> simp_all

/-! ## Claims C11, C17 and C18 -/

/-- C11: for every Field JSON object whose items key holds an object, a successful decode
yields a non-nil Items whose Validations are what ParseValidations returns for the item's
validations array (none when the item has no such key); and decoding an object with only
items holding a validations array has the same outcome as decoding an object with only that
validations array at the top level: the same variants, or failure in the same way. -/
theorem C11_items_validations_as_top_level (C : Codec) :
    (∀ (field f : Field) (o io : JMap), lookup o "items" = some (.obj io) →
      Field.UnmarshalJSON C field (.obj o) = .ok f →
      ∃ item, f.Items = some item ∧
        (match lookup io "validations" with
         | none => item.Validations = []
         | some v => ∃ xs, v = .arr xs ∧ ParseValidations C xs = .ok item.Validations)) ∧
    (∀ vs : List JSON,
      (Field.UnmarshalJSON C {} (.obj [("items", .obj [("validations", .arr vs)])])).map
          (fun f => f.Items.map (fun item => item.Validations))
        = (Field.UnmarshalJSON C {} (.obj [("validations", .arr vs)])).map
          (fun f => some f.Validations)) := by
  constructor
  · intro field f o io hitems h
    have hspec := (Field_UnmarshalJSON_spec C field f o h).2.2.2.2.1
    rw [hitems] at hspec
    obtain ⟨item, hitem, hf⟩ := hspec
    refine ⟨item, hf, ?_⟩
    simp only [JSON.Marshal] at hitem
    have hi := (FieldTypeArrayItem_UnmarshalJSON_spec C {} item _ hitem).2.1
    rw [lookup_marshalMembers] at hi
    cases hl : lookup io "validations" with
    | none =>
      rw [hl] at hi
      exact hi
    | some v =>
      rw [hl] at hi
      obtain ⟨ys, hys, hpv⟩ := hi
      obtain ⟨xs, hv, hxs⟩ := Marshal_eq_arr v ys hys
      subst hxs
      rw [ParseValidations_marshalList] at hpv
      exact ⟨xs, hv, hpv⟩
  · intro vs
    rw [Field_UnmarshalJSON_items_only, Field_UnmarshalJSON_validations_only]
    by_cases hd : decodableList vs = true
    · rw [if_pos hd, if_pos hd]
      cases ParseValidations C vs <;> rfl
    · rw [if_neg hd, if_neg hd]
      rfl

/-- C11 (witness): the field object whose items hold type Link and one unique validation
decodes to a non-nil Items with exactly the Unique variant. -/
theorem C11_items_validations_as_top_level_witness :
    ∃ item, ({ Items := some { Typ := "Link", Validations := [.Unique { Unique := true }] } }
        : Field).Items = some item ∧
      (match lookup [("type", .str "Link"),
          ("validations", .arr [.obj [("unique", .bool true)]])] "validations" with
       | none => item.Validations = []
       | some v => ∃ xs, v = .arr xs ∧ ParseValidations specCodec xs = .ok item.Validations) :=
  (C11_items_validations_as_top_level specCodec).1 {}
    { Items := some { Typ := "Link", Validations := [.Unique { Unique := true }] } }
    [("items", .obj [("type", .str "Link"),
      ("validations", .arr [.obj [("unique", .bool true)]])])]
    [("type", .str "Link"), ("validations", .arr [.obj [("unique", .bool true)]])] rfl rfl

/-- C17: for every validation object whose matched variants all decode, ParseValidations on
the one-element list succeeds with one variant per discriminating key present and none for an
absent key, each the result of that key's decoder, in the fixed rule order; the number of
variants is the number of discriminating keys present, at most ten, and the keys of the
variants do not depend on the order of the members of the object. -/
theorem C17_multi_append (C : Codec) (o : JMap)
    (hdec : ∀ key decode, (key, decode) ∈ ParseValidations.rules C → hasKey o key = true →
      ∃ v, decode (JSON.Marshal (.obj o)) = .ok v) :
    ∃ vs, ParseValidations C [.obj o] = .ok vs ∧
      vs.map FieldValidation.key = discriminatingKeys.filter (fun k => hasKey o k) ∧
      vs.length = (discriminatingKeys.filter (fun k => hasKey o k)).length ∧
      vs.length ≤ 10 ∧
      (∀ v ∈ vs, ∃ key decode, (key, decode) ∈ ParseValidations.rules C ∧
        hasKey o key = true ∧ decode (JSON.Marshal (.obj o)) = .ok v) ∧
      (∀ o' : JMap, o'.Perm o →
        discriminatingKeys.filter (fun k => hasKey o' k)
          = discriminatingKeys.filter (fun k => hasKey o k)) := by
  obtain ⟨vs, hvs⟩ := runRules_ok_of_decodes (ParseValidations.rules C) o _ hdec []
  have hkeys := runRules_keys (ParseValidations.rules C) o _
    (fun key decode hm doc v hd => rules_key_of_ok C key decode hm doc v hd) vs hvs
  rw [rules_keys] at hkeys
  have hlen : vs.length = (discriminatingKeys.filter (fun k => hasKey o k)).length := by
    rw [← hkeys, List.length_map]
  refine ⟨vs, ?_, hkeys, hlen, ?_, runRules_mem _ o _ vs hvs, ?_⟩
  · rw [ParseValidations_singleton_obj]; exact hvs
  · rw [hlen]
    exact (List.length_filter_le _ _).trans (by decide)
  · intro o' hperm
    congr 1
    funext k
    rw [hasKey_perm o' o hperm k]

/-- C17 (witness): an object holding regexp and then in, two discriminating keys, decodes to
two variants, PredefinedValues first and Regexp second, the rule order. -/
theorem C17_multi_append_witness :
    ParseValidations specCodec
        [.obj [("regexp", .obj [("pattern", .str "a+")]), ("in", .arr [.str "x"])]]
      = .ok [.PredefinedValues { In := [.str "x"] }, .Regex { Pattern := "a+", Flags := "" }] ∧
    ∃ vs, ParseValidations specCodec
        [.obj [("regexp", .obj [("pattern", .str "a+")]), ("in", .arr [.str "x"])]] = .ok vs ∧
      vs.map FieldValidation.key = discriminatingKeys.filter
        (fun k => hasKey [("regexp", .obj [("pattern", .str "a+")]), ("in", .arr [.str "x"])] k)
      ∧ vs.length = (discriminatingKeys.filter
        (fun k => hasKey [("regexp", .obj [("pattern", .str "a+")]), ("in", .arr [.str "x"])]
          k)).length ∧
      vs.length ≤ 10 ∧
      (∀ v ∈ vs, ∃ key decode, (key, decode) ∈ ParseValidations.rules specCodec ∧
        hasKey [("regexp", .obj [("pattern", .str "a+")]), ("in", .arr [.str "x"])] key = true
        ∧ decode (JSON.Marshal
            (.obj [("regexp", .obj [("pattern", .str "a+")]), ("in", .arr [.str "x"])]))
          = .ok v) ∧
      (∀ o' : JMap,
        o'.Perm [("regexp", .obj [("pattern", .str "a+")]), ("in", .arr [.str "x"])] →
        discriminatingKeys.filter (fun k => hasKey o' k)
          = discriminatingKeys.filter (fun k =>
              hasKey [("regexp", .obj [("pattern", .str "a+")]), ("in", .arr [.str "x"])] k)) :=
  ⟨rfl, C17_multi_append specCodec
    [("regexp", .obj [("pattern", .str "a+")]), ("in", .arr [.str "x"])]
    (fun key decode hmem hk => by
      simp only [ParseValidations.rules, List.mem_cons, Prod.mk.injEq, List.mem_singleton,
        List.not_mem_nil, or_false] at hmem
      rcases hmem with ⟨rfl, rfl⟩ | ⟨rfl, rfl⟩ | ⟨rfl, rfl⟩ | ⟨rfl, rfl⟩ | ⟨rfl, rfl⟩ |
        ⟨rfl, rfl⟩ | ⟨rfl, rfl⟩ | ⟨rfl, rfl⟩ | ⟨rfl, rfl⟩ | ⟨rfl, rfl⟩ <;>
      first
        | exact absurd hk (by decide)
        | exact ⟨_, rfl⟩)⟩

/-- C18 (amended): for every JSON object o and every string s, ParseValidations on the string
and on the object have the same outcome when s is the text json.Marshal writes for o, and
more generally when the text reads to an object with the same keys as o and every decoder of
a key present gives the same result on the text as on the re-marshalled object. -/
theorem C18_string_and_object_forms (C : Codec) (o : JMap) (s : String) :
    (C.parse s = .ok (JSON.Marshal (.obj o)) →
      ParseValidations C [.str s] = ParseValidations C [.obj o]) ∧
    (∀ m : JMap, C.parse s = .ok (.obj m) → (∀ k, hasKey m k = hasKey o k) →
      (∀ key decode, (key, decode) ∈ ParseValidations.rules C → hasKey m key = true →
        decode (.obj m) = decode (JSON.Marshal (.obj o))) →
      ParseValidations C [.str s] = ParseValidations C [.obj o]) := by
  have hgen : ∀ m : JMap, C.parse s = .ok (.obj m) → (∀ k, hasKey m k = hasKey o k) →
      (∀ key decode, (key, decode) ∈ ParseValidations.rules C → hasKey m key = true →
        decode (.obj m) = decode (JSON.Marshal (.obj o))) →
      ParseValidations C [.str s] = ParseValidations C [.obj o] := by
    intro m hparse hkeys hdec
    rw [ParseValidations_singleton_str C s (.obj m) m hparse rfl, ParseValidations_singleton_obj]
    exact runRules_congr _ m o _ _ hkeys hdec []
  refine ⟨?_, hgen⟩
  intro hparse
  exact hgen (marshalMembers o) hparse (fun k => hasKey_marshalMembers o k)
    (fun _ _ _ _ => rfl)

/-- C18 (witness): the text that json.Marshal writes for the object with the key unique and
the object itself decode alike, to the Unique variant. -/
theorem C18_string_and_object_forms_witness :
    ParseValidations specCodec [.str "\x7b\"unique\":true\x7d"]
      = ParseValidations specCodec [.obj [("unique", .bool true)]] :=
  (C18_string_and_object_forms specCodec [("unique", .bool true)]
    "\x7b\"unique\":true\x7d").1 rfl

/-- C18 (counterexample): a text in which the key unique occurs twice, first with a number
and then with true, reads to the map that holds unique: true; decoded member by member, the
string form fails on the number while the object form succeeds with the Unique variant. -/
theorem C18_counterexample_repeated_key :
    parseJSON "\x7b\"unique\": 5, \"unique\": true\x7d"
      = .ok (.obj [("unique", .num 5), ("unique", .bool true)]) ∧
    JSON.Marshal (.obj [("unique", .num 5), ("unique", .bool true)])
      = JSON.Marshal (.obj [("unique", .bool true)]) ∧
    ParseValidations sequentialCodec [.str "\x7b\"unique\": 5, \"unique\": true\x7d"]
      = .err (.typeMismatch "unique") ∧
    ParseValidations sequentialCodec [.obj [("unique", .bool true)]]
      = .ok [.Unique { Unique := true }] :=
  ⟨rfl, rfl, rfl, rfl⟩

/-! ## Lemmas on field resolution -/

theorem scanFields_no_match (key : String) (fields : List Field) (ef : EntryField)
    (h : ∀ f ∈ fields, f.ID ≠ key) : GetEntryKey.scanFields key fields ef = ef := by
  induction fields with
  | nil => rfl
  | cons g rest ih =>
    simp only [GetEntryKey.scanFields]
    rw [if_pos (h g (List.mem_cons_self _ _))]
    exact ih (fun f hf => h f (List.mem_cons_of_mem _ hf))

theorem scanFields_unique (key : String) (fields : List Field) (ef : EntryField) (f : Field)
    (hnd : (fields.map Field.ID).Nodup) (hmem : f ∈ fields) (hid : f.ID = key) :
    GetEntryKey.scanFields key fields ef = { ef with dataType := f.Typ } := by
  induction fields generalizing ef with
  | nil => simp at hmem
  | cons g rest ih =>
    simp only [List.map_cons, List.nodup_cons] at hnd
    simp only [GetEntryKey.scanFields]
    rcases List.mem_cons.mp hmem with heq | hin
    · subst heq
      rw [if_neg (by simpa using hid)]
      apply scanFields_no_match
      intro f' hf' hkey
      apply hnd.1
      rw [hid, ← hkey]
      exact List.mem_map_of_mem Field.ID hf'
    · have hne : g.ID ≠ key := by
        intro hg
        apply hnd.1
        rw [hg, ← hid]
        exact List.mem_map_of_mem Field.ID hin
      rw [if_pos hne]
      exact ih ef hnd.2 hin

theorem scanTypes_skip (sys : Sys) (key : String) (link : Link) (linkSys : LinkSys)
    (hlink : sys.ContentType = some link) (hlinkSys : link.Sys = some linkSys)
    (page : List ContentType) (ef : EntryField)
    (hids : ∀ c ∈ page, c.Sys.isSome = true)
    (h : ∀ c ∈ page, c.id? = some linkSys.ID → ∀ f ∈ c.Fields, f.ID ≠ key) :
    GetEntryKey.scanTypes sys key page ef = .ok ef := by
  induction page with
  | nil => rfl
  | cons c rest ih =>
    have ih' := ih (fun c' hc' => hids c' (List.mem_cons_of_mem _ hc'))
      (fun c' hc' => h c' (List.mem_cons_of_mem _ hc'))
    have hc := hids c (List.mem_cons_self _ _)
    cases hcs : c.Sys with
    | none => simp [hcs] at hc
    | some ctSys =>
      simp only [GetEntryKey.scanTypes, hcs, hlink, hlinkSys]
      by_cases hid : ctSys.ID = linkSys.ID
      · rw [if_neg (by simpa using hid)]
        rw [scanFields_no_match key c.Fields ef
          (h c (List.mem_cons_self _ _) (by simp [ContentType.id?, hcs, hid]))]
        exact ih'
      · rw [if_pos hid]
        exact ih'

theorem scanTypes_unique (sys : Sys) (key : String) (link : Link) (linkSys : LinkSys)
    (hlink : sys.ContentType = some link) (hlinkSys : link.Sys = some linkSys)
    (page : List ContentType) (ef : EntryField) (ct : ContentType)
    (hids : ∀ c ∈ page, c.Sys.isSome = true)
    (hnd : (page.map ContentType.id?).Nodup) (hmem : ct ∈ page)
    (hid : ct.id? = some linkSys.ID) :
    GetEntryKey.scanTypes sys key page ef
      = .ok (GetEntryKey.scanFields key ct.Fields ef) := by
  induction page generalizing ef with
  | nil => simp at hmem
  | cons c rest ih =>
    simp only [List.map_cons, List.nodup_cons] at hnd
    have hrest : ∀ c' ∈ rest, c'.Sys.isSome = true :=
      fun c' hc' => hids c' (List.mem_cons_of_mem _ hc')
    have hc := hids c (List.mem_cons_self _ _)
    cases hcs : c.Sys with
    | none => simp [hcs] at hc
    | some ctSys =>
      simp only [GetEntryKey.scanTypes, hcs, hlink, hlinkSys]
      rcases List.mem_cons.mp hmem with heq | hin
      · subst heq
        have hsame : ctSys.ID = linkSys.ID := by
          simpa [ContentType.id?, hcs] using hid
        rw [if_neg (by simpa using hsame)]
        apply scanTypes_skip sys key link linkSys hlink hlinkSys rest _ hrest
        intro c' hc' hid'
        exfalso
        apply hnd.1
        rw [hid, ← hid']
        exact List.mem_map_of_mem ContentType.id? hc'
      · have hne : ctSys.ID ≠ linkSys.ID := by
          intro hsame
          apply hnd.1
          have : c.id? = ct.id? := by rw [hid]; simp [ContentType.id?, hcs, hsame]
          rw [this]
          exact List.mem_map_of_mem ContentType.id? hin
        rw [if_pos hne]
        exact ih ef hrest hnd.2 hin

/-! ## Claims on field resolution -/

theorem fieldValue_none (fields : List (String × GoValue)) (key : String)
    (h : ∀ kv ∈ fields, kv.1 ≠ key) : fieldValue fields key = none := by
  induction fields with
  | nil => rfl
  | cons kv rest ih =>
    obtain ⟨k, v⟩ := kv
    simp only [fieldValue]
    rw [ih (fun kv hkv => h kv (List.mem_cons_of_mem _ hkv))]
    have hk : k ≠ key := h (k, v) (List.mem_cons_self _ _)
    simp [hk]

theorem fieldValue_last (pre post : List (String × GoValue)) (key : String) (v : GoValue)
    (h : ∀ kv ∈ post, kv.1 ≠ key) : fieldValue (pre ++ (key, v) :: post) key = some v := by
  induction pre with
  | nil =>
    simp only [List.nil_append, fieldValue]
    rw [fieldValue_none post key h]
    simp
  | cons kv rest ih =>
    obtain ⟨k, w⟩ := kv
    rw [List.cons_append]
    show (match fieldValue (rest ++ (key, v) :: post) key with
      | some w' => some w'
      | none => if k = key then some w else none) = some v
    rw [ih]

/-- C12: for every entry with its space and content-type references, every field id k and
every fetched first page (content types with ids, the ids unique) that contains the content
type the entry references, with a field of id k and declared type t (field ids unique),
GetEntryKey returns without error an EntryField whose declared kind is t and whose value is
the value the entry stores under k: the value v of the last member (k, v) of the entry's
fields, and nil when the entry has no member with key k. -/
theorem C12_field_resolution (firstPage : String → Res (List ContentType)) (entry : Entry)
    (key t : String) (sys : Sys) (space : Link) (spaceSys : LinkSys) (link : Link)
    (linkSys : LinkSys) (page : List ContentType) (ct : ContentType) (field : Field)
    (hsys : entry.Sys = some sys) (hspace : sys.Space = some space)
    (hspaceSys : space.Sys = some spaceSys)
    (hlink : sys.ContentType = some link) (hlinkSys : link.Sys = some linkSys)
    (hpage : firstPage spaceSys.ID = .ok page)
    (hids : ∀ c ∈ page, c.Sys.isSome = true)
    (hnodup : (page.map ContentType.id?).Nodup)
    (hct : ct ∈ page) (hctid : ct.id? = some linkSys.ID)
    (hfnodup : (ct.Fields.map Field.ID).Nodup)
    (hfield : field ∈ ct.Fields) (hfid : field.ID = key) (hftype : field.Typ = t) :
    (∀ pre post v, entry.Fields = pre ++ (key, v) :: post → (∀ kv ∈ post, kv.1 ≠ key) →
      EntriesService.GetEntryKey firstPage entry key
        = .ok { value := some v, dataType := t }) ∧
    ((∀ kv ∈ entry.Fields, kv.1 ≠ key) →
      EntriesService.GetEntryKey firstPage entry key
        = .ok { value := none, dataType := t }) := by
  have hres : EntriesService.GetEntryKey firstPage entry key
      = .ok { value := fieldValue entry.Fields key, dataType := t } := by
    simp only [EntriesService.GetEntryKey, hsys, hspace, hspaceSys, hpage]
    rw [scanTypes_unique sys key link linkSys hlink hlinkSys page _ ct hids hnodup hct hctid,
      scanFields_unique key ct.Fields _ field hfnodup hfield hfid, hftype]
  constructor
  · intro pre post v hfields hpost
    rw [hres, hfields, fieldValue_last pre post key v hpost]
  · intro habsent
    rw [hres, fieldValue_none entry.Fields key habsent]

/-- C12 (witness): the entry of content type blogPost, which stores the text Hello under
title, resolves its field title, declared Symbol on blogPost, to Hello paired with Symbol. -/
theorem C12_field_resolution_witness :
    EntriesService.GetEntryKey demoPage demoEntry "title"
      = .ok { value := some (.json (.str "Hello")), dataType := "Symbol" } :=
  (C12_field_resolution demoPage demoEntry "title" "Symbol"
    { ID := "post1", Version := 3, ContentType := some { Sys := some { ID := "blogPost" } },
      Space := some { Sys := some { ID := "sp" } } }
    { Sys := some { ID := "sp" } } { ID := "sp" }
    { Sys := some { ID := "blogPost" } } { ID := "blogPost" }
    [{ Sys := some { ID := "author", Version := 2, ContentType := none, Space := none },
       Name := "Author", Description := "",
       Fields := [{ ID := "title", Name := "Title", Typ := "Text" }],
       DisplayField := "title" },
     { Sys := some { ID := "blogPost", Version := 7, ContentType := none, Space := none },
       Name := "Blog post", Description := "",
       Fields := [{ ID := "title", Name := "Title", Typ := "Symbol" },
                  { ID := "body", Name := "Body", Typ := "Text" }],
       DisplayField := "title" }]
    { Sys := some { ID := "blogPost", Version := 7, ContentType := none, Space := none },
      Name := "Blog post", Description := "",
      Fields := [{ ID := "title", Name := "Title", Typ := "Symbol" },
                 { ID := "body", Name := "Body", Typ := "Text" }],
      DisplayField := "title" }
    { ID := "title", Name := "Title", Typ := "Symbol" }
    rfl rfl rfl rfl rfl rfl (by decide) (by decide)
    (List.Mem.tail _ (List.Mem.head _)) rfl (by decide) (List.Mem.head _) rfl rfl).1
    [] [] (.json (.str "Hello")) rfl (fun kv hkv => by simp at hkv)

/-- C13 (amended): for every entry with its space and content-type references and every field
id k, if on the fetched page (content types with ids) no content type with the entry's
content-type id has a field with id k, in particular if no content type has that id,
GetEntryKey yields an EntryField with the stored value and empty declared kind; and if the
page cannot be fetched, GetEntryKey returns the fetch error and no EntryField. -/
theorem C13_field_not_found (firstPage : String → Res (List ContentType)) (entry : Entry)
    (key : String) (sys : Sys) (space : Link) (spaceSys : LinkSys) (link : Link)
    (linkSys : LinkSys)
    (hsys : entry.Sys = some sys) (hspace : sys.Space = some space)
    (hspaceSys : space.Sys = some spaceSys)
    (hlink : sys.ContentType = some link) (hlinkSys : link.Sys = some linkSys) :
    (∀ page, firstPage spaceSys.ID = .ok page → (∀ c ∈ page, c.Sys.isSome = true) →
      (∀ c ∈ page, c.id? = some linkSys.ID → ∀ f ∈ c.Fields, f.ID ≠ key) →
      EntriesService.GetEntryKey firstPage entry key
        = .ok { value := fieldValue entry.Fields key, dataType := "" }) ∧
    (∀ e, firstPage spaceSys.ID = .err e →
      EntriesService.GetEntryKey firstPage entry key = .err e) := by
  constructor
  · intro page hpage hids hnone
    simp only [EntriesService.GetEntryKey, hsys, hspace, hspaceSys, hpage]
    exact scanTypes_skip sys key link linkSys hlink hlinkSys page _ hids hnone
  · intro e hpage
    simp only [EntriesService.GetEntryKey, hsys, hspace, hspaceSys, hpage]

/-- C13 (witness): the entry of content type blogPost asks for the field subtitle, which
blogPost does not declare, and gets the empty kind. -/
theorem C13_field_not_found_witness :
    EntriesService.GetEntryKey demoPage demoEntry "subtitle"
      = .ok { value := fieldValue demoEntry.Fields "subtitle", dataType := "" } :=
  (C13_field_not_found demoPage demoEntry "subtitle"
    { ID := "post1", Version := 3, ContentType := some { Sys := some { ID := "blogPost" } },
      Space := some { Sys := some { ID := "sp" } } }
    { Sys := some { ID := "sp" } } { ID := "sp" }
    { Sys := some { ID := "blogPost" } } { ID := "blogPost" } rfl rfl rfl rfl rfl).1
    _ rfl (by decide) (by decide)

/-- C13 (counterexample): when the page of content types cannot be fetched, GetEntryKey
returns the error of the fetch; the outcome is not an EntryField with empty kind. -/
theorem C13_counterexample_fetch_error :
    EntriesService.GetEntryKey (fun _ => .err (.transport "503 Service Unavailable"))
        demoEntry "title"
      = .err (.transport "503 Service Unavailable") :=
  rfl

/-! ## Claims C14, C15, C16, C19 and C20 -/

/-- C14: GetVersion, for both ContentType and Entry, returns 1 when the resource has no system
metadata and otherwise exactly the stored version, for every version value (0 included). -/
theorem C14_get_version (sys : Sys) (name description displayField locale : String)
    (ctFields : List Field) (fields : List (String × GoValue)) :
    ContentType.GetVersion
        { Sys := none, Name := name, Description := description,
          Fields := ctFields, DisplayField := displayField } = 1 ∧
    ContentType.GetVersion
        { Sys := some sys, Name := name, Description := description,
          Fields := ctFields, DisplayField := displayField } = sys.Version ∧
    Entry.GetVersion { locale := locale, Sys := none, Fields := fields } = 1 ∧
    Entry.GetVersion { locale := locale, Sys := some sys, Fields := fields } = sys.Version ∧
    Entry.GetVersion
        { locale := locale, Sys := some { sys with Version := 0 }, Fields := fields } = 0 :=
  ⟨rfl, rfl, rfl, rfl, rfl⟩

theorem lookup_append_single (o : JMap) (k : String) (v : JSON) (key : String)
    (h : k ≠ key) : lookup (o ++ [(k, v)]) key = lookup o key := by
  induction o with
  | nil => simp [lookup, h]
  | cons kv rest ih =>
    obtain ⟨k', v'⟩ := kv
    rw [List.cons_append, lookup_cons, lookup_cons, ih]

theorem lookup_cons_other (o : JMap) (k : String) (v : JSON) (key : String)
    (h : k ≠ key) : lookup ((k, v) :: o) key = lookup o key := by
  rw [lookup_cons]
  cases lookup o key <;> simp [h]

theorem decodableMembers_append (m m' : JMap) :
    decodableMembers (m ++ m') = (decodableMembers m && decodableMembers m') := by
  induction m with
  | nil => simp [decodableMembers]
  | cons kv rest ih =>
    obtain ⟨k, v⟩ := kv
    simp [decodableMembers, ih, Bool.and_assoc]

theorem Field_UnmarshalJSON_congr (C : Codec) (field : Field) (o o' : JMap)
    (hd : decodableMembers o' = decodableMembers o)
    (h : ∀ key ∈ recognisedKeys, lookup o' key = lookup o key) :
    Field.UnmarshalJSON C field (.obj o') = Field.UnmarshalJSON C field (.obj o) := by
  have h1 := h "id" (by decide)
  have h2 := h "name" (by decide)
  have h3 := h "type" (by decide)
  have h4 := h "linkType" (by decide)
  have h5 := h "items" (by decide)
  have h6 := h "required" (by decide)
  have h7 := h "localized" (by decide)
  have h8 := h "disabled" (by decide)
  have h9 := h "omitted" (by decide)
  have h10 := h "validations" (by decide)
  by_cases hok : decodableMembers o = true
  · rw [Field.UnmarshalJSON, Field.UnmarshalJSON, unmarshalPayload_obj o hok,
      unmarshalPayload_obj o' (hd.trans hok)]
    simp only [Res.bind, whenPresent, h1, h2, h3, h4, h5, h6, h7, h8, h9, h10]
  · have hbad : ∀ m : JMap, decodableMembers m = false →
        Field.UnmarshalJSON C field (.obj m) = .err (.typeMismatch "number") := by
      intro m hm
      simp [Field.UnmarshalJSON, unmarshalPayload, unmarshalMap, hm, Res.bind]
    have hfalse : decodableMembers o = false := by simpa using hok
    rw [hbad o hfalse, hbad o' (hd.trans hfalse)]

/-- C15 (amended): for every JSON object o, every key k outside the ten keys the field decoder
reads and every JSON value v that json.Unmarshal can decode into an interface{} value (no
number outside float64 in it), Field.UnmarshalJSON on o extended with the member k: v, added
at the end or at the front, has the same outcome as on o: the same Field, or the same
failure. -/
theorem C15_unknown_keys_ignored (C : Codec) (field : Field) (o : JMap) (k : String)
    (v : JSON) (hk : k ∉ recognisedKeys) (hv : v.decodable = true) :
    Field.UnmarshalJSON C field (.obj (o ++ [(k, v)])) = Field.UnmarshalJSON C field (.obj o) ∧
    Field.UnmarshalJSON C field (.obj ((k, v) :: o)) = Field.UnmarshalJSON C field (.obj o) := by
  constructor
  · apply Field_UnmarshalJSON_congr
    · rw [decodableMembers_append]
      simp [decodableMembers, hv]
    · intro key hkey
      exact lookup_append_single o k v key (fun h => hk (h ▸ hkey))
  · apply Field_UnmarshalJSON_congr
    · simp [decodableMembers, hv]
    · intro key hkey
      exact lookup_cons_other o k v key (fun h => hk (h ▸ hkey))

/-- C15 (witness): a field object with the extra key defaultValue decodes as it does without
that key. -/
theorem C15_unknown_keys_ignored_witness :
    Field.UnmarshalJSON specCodec {}
        (.obj ([("id", .str "title"), ("type", .str "Symbol")] ++ [("defaultValue", .num 3)]))
      = Field.UnmarshalJSON specCodec {} (.obj [("id", .str "title"), ("type", .str "Symbol")])
    ∧ Field.UnmarshalJSON specCodec {}
        (.obj (("defaultValue", .num 3) :: [("id", .str "title"), ("type", .str "Symbol")]))
      = Field.UnmarshalJSON specCodec {}
          (.obj [("id", .str "title"), ("type", .str "Symbol")]) :=
  C15_unknown_keys_ignored specCodec {} [("id", .str "title"), ("type", .str "Symbol")]
    "defaultValue" (.num 3) (by decide) rfl

/-- C15 (counterexample): the unknown key boost holding the number 1e400, which no float64
can store, makes Field.UnmarshalJSON fail on an object that decodes without it. -/
theorem C15_counterexample_number_out_of_range :
    "boost" ∉ recognisedKeys ∧
    Field.UnmarshalJSON specCodec {} (.obj [("id", .str "title")]) = .ok { ID := "title" } ∧
    Field.UnmarshalJSON specCodec {}
        (.obj ([("id", .str "title")] ++ [("boost", .num (Int.ofNat (10 ^ 200 * 10 ^ 200)))]))
      = .err (.typeMismatch "number") :=
  ⟨by decide, rfl, rfl⟩

theorem versionedCall_built (c : Client) (method : String) (path : String → String)
    (sys : Sys) (h : c.requestErr method (path sys.ID) = none) :
    versionedCall c method path (some sys)
      = .sent
          (Request.setHeader
            { method := method, path := path sys.ID, body := none, header := c.header }
            "X-Contentful-Version" (Itoa sys.Version))
          (c.transport
            (Request.setHeader
              { method := method, path := path sys.ID, body := none, header := c.header }
              "X-Contentful-Version" (Itoa sys.Version))) := by
  simp [versionedCall, newRequest, h, sendVersioned]

/-- C16 (amended): ContentType Delete, Activate and Deactivate perform no local precondition
check on a content type that has system metadata attached, whatever its id and version: when
the request can be constructed, the operation builds DELETE .../content_types/{id}, PUT
.../content_types/{id}/published or DELETE .../content_types/{id}/published with the version
header, hands it to the transport, and returns what the transport returns.  For a content
type with no system metadata attached no request is built. -/
theorem C16_no_local_precondition (c : Client) (spaceID : String) (ct : ContentType) :
    (∀ sys, ct.Sys = some sys →
      (c.requestErr "DELETE"
          ("/spaces/" ++ spaceID ++ c.envPath ++ "/content_types/" ++ sys.ID) = none →
        ∃ req, ContentTypesService.Delete c spaceID ct = .sent req (c.transport req) ∧
          req.method = "DELETE" ∧
          req.path = "/spaces/" ++ spaceID ++ c.envPath ++ "/content_types/" ++ sys.ID ∧
          req.getHeader "X-Contentful-Version" = some (Itoa sys.Version)) ∧
      (c.requestErr "PUT"
          ("/spaces/" ++ spaceID ++ c.envPath ++ "/content_types/" ++ sys.ID ++ "/published")
          = none →
        ∃ req, ContentTypesService.Activate c spaceID ct = .sent req (c.transport req) ∧
          req.method = "PUT" ∧
          req.path = "/spaces/" ++ spaceID ++ c.envPath ++ "/content_types/" ++ sys.ID
            ++ "/published" ∧
          req.getHeader "X-Contentful-Version" = some (Itoa sys.Version)) ∧
      (c.requestErr "DELETE"
          ("/spaces/" ++ spaceID ++ c.envPath ++ "/content_types/" ++ sys.ID ++ "/published")
          = none →
        ∃ req, ContentTypesService.Deactivate c spaceID ct = .sent req (c.transport req) ∧
          req.method = "DELETE" ∧
          req.path = "/spaces/" ++ spaceID ++ c.envPath ++ "/content_types/" ++ sys.ID
            ++ "/published" ∧
          req.getHeader "X-Contentful-Version" = some (Itoa sys.Version))) ∧
    (ct.Sys = none →
      (∀ req res, ContentTypesService.Delete c spaceID ct ≠ .sent req res) ∧
      (∀ req res, ContentTypesService.Activate c spaceID ct ≠ .sent req res) ∧
      (∀ req res, ContentTypesService.Deactivate c spaceID ct ≠ .sent req res)) := by
  constructor
  · intro sys hsys
    refine ⟨?_, ?_, ?_⟩
    · intro h
      have hb := versionedCall_built c "DELETE"
        (fun id => "/spaces/" ++ spaceID ++ c.envPath ++ "/content_types/" ++ id) sys h
      rw [← hsys] at hb
      exact ⟨_, hb, rfl, rfl, getHeader_setHeader_same _ _ _⟩
    · intro h
      have hb := versionedCall_built c "PUT"
        (fun id => "/spaces/" ++ spaceID ++ c.envPath ++ "/content_types/" ++ id
          ++ "/published") sys h
      rw [← hsys] at hb
      exact ⟨_, hb, rfl, rfl, getHeader_setHeader_same _ _ _⟩
    · intro h
      have hb := versionedCall_built c "DELETE"
        (fun id => "/spaces/" ++ spaceID ++ c.envPath ++ "/content_types/" ++ id
          ++ "/published") sys h
      rw [← hsys] at hb
      exact ⟨_, hb, rfl, rfl, getHeader_setHeader_same _ _ _⟩
  · intro hnone
    have hno : ∀ method path req res, versionedCall c method path ct.Sys ≠ .sent req res := by
      intro method path req res h
      obtain ⟨s, hs, _⟩ := versionedCall_sent c method path ct.Sys req res h
      rw [hnone] at hs
      cases hs
    exact ⟨fun req res => hno _ _ req res, fun req res => hno _ _ req res,
      fun req res => hno _ _ req res⟩

/-- C16 (witness): deactivating a content type that was never persisted, with empty id and
version 0 in its system metadata, builds the DELETE request with the version header 0 and
hands it to the transport. -/
theorem C16_no_local_precondition_witness :
    ∃ req, ContentTypesService.Deactivate demoClient "sp"
        { Sys := some { ID := "", Version := 0, ContentType := none, Space := none },
          Name := "Draft", Description := "", Fields := [], DisplayField := "" }
      = .sent req (demoClient.transport req) ∧
      req.method = "DELETE" ∧
      req.path = "/spaces/" ++ "sp" ++ demoClient.envPath ++ "/content_types/" ++ ""
        ++ "/published" ∧
      req.getHeader "X-Contentful-Version" = some (Itoa 0) :=
  ((C16_no_local_precondition demoClient "sp"
    { Sys := some { ID := "", Version := 0, ContentType := none, Space := none },
      Name := "Draft", Description := "", Fields := [], DisplayField := "" }).1
    { ID := "", Version := 0, ContentType := none, Space := none } rfl).2.2 rfl

/-- C16 (counterexample): on a content type with no system metadata attached, Delete,
Activate and Deactivate build no request; each panics on the nil pointer. -/
theorem C16_counterexample_without_sys :
    ContentTypesService.Delete demoClient "sp"
        { Sys := none, Name := "Draft", Description := "", Fields := [], DisplayField := "" }
      = .panic nilDeref ∧
    ContentTypesService.Activate demoClient "sp"
        { Sys := none, Name := "Draft", Description := "", Fields := [], DisplayField := "" }
      = .panic nilDeref ∧
    ContentTypesService.Deactivate demoClient "sp"
        { Sys := none, Name := "Draft", Description := "", Fields := [], DisplayField := "" }
      = .panic nilDeref :=
  ⟨rfl, rfl, rfl⟩

/-- C19 (code at the failing input): on an entry without system metadata, Entry Upsert
returns the marshalling error when the fields cannot be marshalled and otherwise panics on the
nil pointer at the content-type check; it never builds the POST request. -/
theorem C19_entry_upsert_nil_sys (c : Client) (spaceID locale : String)
    (fields : List (String × GoValue)) :
    EntriesService.Upsert c spaceID { locale := locale, Sys := none, Fields := fields }
      = (match marshalFieldsOnly fields with
         | .ok _ => .panic nilDeref
         | .err e => .failed e
         | .panic m => .panic m) ∧
    EntriesService.Upsert c spaceID
        { locale := locale, Sys := none, Fields := [("title", .json (.str "Hello"))] }
      = .panic nilDeref := by
  constructor
  · unfold EntriesService.Upsert
    cases marshalFieldsOnly fields <;> rfl
  · rfl

/-- C20 (code at the failing input): decoding the JSON encoding of an array item without
validations into a fresh value restores the type but never the link type, which comes back
empty; an item of type Link with link type Entry does not survive, alone or inside a Field. -/
theorem C20_array_item_link_type_lost (C : Codec) (typ linkType : String) :
    FieldTypeArrayItem.UnmarshalJSON C {} (marshalArrayItem typ linkType)
      = .ok { Typ := typ, Validations := [], LinkType := "" } ∧
    FieldTypeArrayItem.UnmarshalJSON C {} (marshalArrayItem "Link" "Entry")
      = .ok { Typ := "Link", Validations := [], LinkType := "" } ∧
    Field.UnmarshalJSON C {}
        (.obj [("name", .str "Tags"), ("type", .str "Array"),
               ("items", marshalArrayItem "Link" "Entry")])
      = .ok { Name := "Tags", Typ := "Array",
              Items := some { Typ := "Link", Validations := [], LinkType := "" } } := by
  refine ⟨?_, rfl, rfl⟩
  by_cases ht : typ = "" <;> by_cases hl : linkType = "" <;>
    simp [marshalArrayItem, FieldTypeArrayItem.UnmarshalJSON, unmarshalPayload, unmarshalMap,
      decodableMembers, JSON.decodable, Res.bind, Res.map,
      whenPresent, lookup, assertString, ht, hl]

end Contentful
